import Mathlib

/-!
# Verification of the single-instrument limit order book (`src/orderbook/order_book.cpp`)

Shallow embedding of the order-book engine.  Modelling conventions:

* C++ `double` prices are only ever compared for order/equality and used as map
  keys, so they are embedded as `Int`.
* C++ `uint64_t` quantities/counts are embedded as `Nat`, with explicit
  `% 2^64` (`u64add`/`u64sub`) at exactly the sites where the C++ code can wrap
  (the `+=`, `-=`, `++`, `--` operators on `uint64_t` map values).
* `std::map<double, uint64_t, std::greater>` (bids) and
  `std::map<double, uint64_t>` (asks) are embedded as association lists kept
  sorted by the map's comparator; `begin()` is the head.
* `std::unordered_map<uint64_t, Order>` (the registry) is embedded as an
  association list; iteration is list order (the C++ iteration order is
  unspecified; all verified properties are independent of that order),
  insertion appends.
* Trade timestamps come from an external clock capability and are out of the
  modelled core (spec §1), so the `timestamp_ns` field is omitted.
* `max_bid_quantity` / `max_ask_quantity` and `next_order_id` are only used by
  the presentation layer (`print_book`), which is out of scope, so they are
  omitted from the state.
* The C++ `while` matching loops are embedded with explicit fuel
  `length of opposite ladder + 1`; on states satisfying the book invariants
  each iteration either terminates the loop or removes one price level, so the
  fuel is never exhausted there (proved below).
-/

/-- The modulus of C++ `uint64_t` arithmetic. -/
def U64 : Nat := 2 ^ 64

/-- Wrapping `uint64_t` addition. -/
def u64add (a b : Nat) : Nat := (a + b) % U64

/-- Wrapping `uint64_t` subtraction (two's complement style). -/
def u64sub (a b : Nat) : Nat := (a + (U64 - b % U64)) % U64

inductive OrderType where
  | LIMIT : OrderType
  | MARKET : OrderType
deriving DecidableEq, Repr

/-- The `Order` record (`order_book.h` / spec §3). -/
structure Order where
  order_id : Nat
  is_buy : Bool
  order_type : OrderType
  price : Int
  quantity : Nat
deriving DecidableEq, Repr

/-- The `Trade` record; `timestamp_ns` omitted (external clock capability). -/
structure Trade where
  buy_order_id : Nat
  sell_order_id : Nat
  price : Int
  quantity : Nat
deriving DecidableEq, Repr

/-- The `PriceLevel` projection returned by snapshots. -/
structure PriceLevel where
  price : Int
  total_quantity : Nat
  order_count : Nat
deriving DecidableEq, Repr

/-! ## Sorted association-list maps (embedding `std::map`) -/

/-- `m.find(p)` on an association-list map. -/
def mapFind (m : List (Int × Nat)) (p : Int) : Option Nat :=
  match m with
  | [] => none
  | (q, v) :: rest => if p = q then some v else mapFind rest p

/-- Reading a key through `operator[]`'s value-or-default-0 view. -/
def mapGetD (m : List (Int × Nat)) (p : Int) : Nat := (mapFind m p).getD 0

/-- `m.erase(p)`. -/
def mapErase (m : List (Int × Nat)) (p : Int) : List (Int × Nat) :=
  m.filter (fun e => e.1 ≠ p)

/-- `m[p] = v`: replace the value at `p`, or insert `(p, v)` at the position
determined by the map's comparator `lt` (`lt a b` = `a` is ordered before `b`). -/
def ladSet (lt : Int → Int → Bool) (m : List (Int × Nat)) (p : Int) (v : Nat) :
    List (Int × Nat) :=
  match m with
  | [] => [(p, v)]
  | (q, w) :: rest =>
    if p = q then (q, v) :: rest
    else if lt p q then (p, v) :: (q, w) :: rest
    else (q, w) :: ladSet lt rest p v

/-- Comparator of the bid ladder (`std::greater`: larger prices first). -/
def bidLt (a b : Int) : Bool := b < a

/-- Comparator of the ask ladder and of both order-count maps (default
`std::less`: smaller prices first). -/
def askLt (a b : Int) : Bool := a < b

/-! ## The registry (embedding `std::unordered_map<uint64_t, Order>`) -/

/-- `data.orders.find(id)`. -/
def regFind (es : List (Nat × Order)) (i : Nat) : Option Order :=
  match es with
  | [] => none
  | (j, o) :: rest => if i = j then some o else regFind rest i

/-- `data.orders.erase(id)`. -/
def regErase (es : List (Nat × Order)) (i : Nat) : List (Nat × Order) :=
  es.filter (fun e => e.1 ≠ i)

/-- In-place overwrite of the record stored under `id` (used by `amend_order`,
which mutates the registry entry through a reference). -/
def regSet (es : List (Nat × Order)) (i : Nat) (o : Order) : List (Nat × Order) :=
  es.map (fun e => if e.1 = i then (i, o) else e)

/-- The engine state (`OrderBookData`); `color_cycle`, `next_order_id` and the
cached max quantities are presentation-only and omitted. -/
structure OrderBookData where
  orders : List (Nat × Order)
  bids : List (Int × Nat)
  asks : List (Int × Nat)
  bid_order_counts : List (Int × Nat)
  ask_order_counts : List (Int × Nat)
deriving DecidableEq, Repr

/-- A freshly constructed `OrderBook`. -/
def emptyBook : OrderBookData := ⟨[], [], [], [], []⟩

/-! ## The matching scan (`OrderBookImpl::match_orders`) -/

/-- Result of scanning the registry at one price level: the rebuilt registry
(with in-place quantity updates), the aggressor's remaining quantity, the
updated contra ladder and its count map, the emitted trades, and the deferred
removals. -/
structure ScanResult where
  entries : List (Nat × Order)
  incQty : Nat
  lad : List (Int × Nat)
  cnts : List (Int × Nat)
  trades : List Trade
  removals : List Nat
deriving Repr

/-- The registry scan of `match_orders`: `buyAgg` is `incoming_order.is_buy`,
`lt` the contra ladder's comparator, `aggId` the aggressor's id, `p` the match
price.  Walks the registry in iteration order; for each contra-side LIMIT
order at `p` (while the aggressor has quantity) it emits a trade, decrements
both quantities, decrements the contra ladder level (erasing level and count
when the level hits zero, mirroring `asks[p] -= tq; if (asks[p] == 0) erase`),
defers removal of fully filled orders, and stops once the aggressor is empty. -/
def scanContra (buyAgg : Bool) (lt : Int → Int → Bool) (aggId : Nat) (p : Int) :
    List (Nat × Order) → Nat → List (Int × Nat) → List (Int × Nat) → ScanResult
  | [], inc, lad, cnts => ⟨[], inc, lad, cnts, [], []⟩
  | (oid, o) :: rest, inc, lad, cnts =>
    if o.is_buy = (!buyAgg) ∧ o.order_type = OrderType.LIMIT ∧ o.price = p ∧ 0 < inc then
      let tq := min inc o.quantity
      let trade : Trade :=
        if buyAgg then ⟨aggId, oid, p, tq⟩ else ⟨oid, aggId, p, tq⟩
      let inc' := inc - tq
      let o' : Order := { o with quantity := o.quantity - tq }
      let ladVal := u64sub (mapGetD lad p) tq
      let lad' := if ladVal = 0 then mapErase lad p else ladSet lt lad p ladVal
      let cnts' := if ladVal = 0 then mapErase cnts p else cnts
      let rem : List Nat := if o'.quantity = 0 then [oid] else []
      if inc' = 0 then
        ⟨(oid, o') :: rest, 0, lad', cnts', [trade], rem⟩
      else
        let r := scanContra buyAgg lt aggId p rest inc' lad' cnts'
        ⟨(oid, o') :: r.entries, r.incQty, r.lad, r.cnts, trade :: r.trades,
          rem ++ r.removals⟩
    else
      let r := scanContra buyAgg lt aggId p rest inc lad cnts
      ⟨(oid, o) :: r.entries, r.incQty, r.lad, r.cnts, r.trades, r.removals⟩

/-- One full `match_orders` call: scan, then apply the deferred removals. -/
def matchAtPrice (buyAgg : Bool) (lt : Int → Int → Bool) (o : Order) (p : Int)
    (orders : List (Nat × Order)) (lad cnts : List (Int × Nat)) :
    Order × List (Nat × Order) × List (Int × Nat) × List (Int × Nat) × List Trade :=
  let r := scanContra buyAgg lt o.order_id p orders o.quantity lad cnts
  let orders' := r.removals.foldl (fun es i => regErase es i) r.entries
  ({ o with quantity := r.incQty }, orders', r.lad, r.cnts, r.trades)

/-- The matching `while` loop of `add_order`, parameterised by the crossability
test on the contra best price (`fun _ => true` for MARKET orders).  `fuel`
bounds the iterations; call sites pass `contra ladder length + 1`, which is
never exhausted on states satisfying the book invariants. -/
def matchLoop (buyAgg : Bool) (lt : Int → Int → Bool) (crossOK : Int → Bool) :
    Nat → Order → List (Nat × Order) → List (Int × Nat) → List (Int × Nat) →
    List Trade →
    Order × List (Nat × Order) × List (Int × Nat) × List (Int × Nat) × List Trade
  | 0, o, orders, lad, cnts, tr => (o, orders, lad, cnts, tr)
  | Nat.succ fuel, o, orders, lad, cnts, tr =>
    match lad with
    | [] => (o, orders, [], cnts, tr)
    | (bp, bv) :: rest =>
      if 0 < o.quantity ∧ crossOK bp then
        let s := matchAtPrice buyAgg lt o bp orders ((bp, bv) :: rest) cnts
        matchLoop buyAgg lt crossOK fuel s.1 s.2.1 s.2.2.1 s.2.2.2.1
          (tr ++ s.2.2.2.2)
      else (o, orders, (bp, bv) :: rest, cnts, tr)

/-! ## Public operations -/

/-- `add_order`, returning also the final value of the local `new_order`
(the aggressor's residual) alongside the new state and the trades. -/
def add_order_full (d : OrderBookData) (order : Order) :
    Order × OrderBookData × List Trade :=
  if (regFind d.orders order.order_id).isSome then (order, d, [])
  else
    if order.order_type = OrderType.MARKET then
      if order.is_buy then
        let s := matchLoop true askLt (fun _ => true) (d.asks.length + 1) order
          d.orders d.asks d.ask_order_counts []
        (s.1, { d with orders := s.2.1, asks := s.2.2.1,
                       ask_order_counts := s.2.2.2.1 }, s.2.2.2.2)
      else
        let s := matchLoop false bidLt (fun _ => true) (d.bids.length + 1) order
          d.orders d.bids d.bid_order_counts []
        (s.1, { d with orders := s.2.1, bids := s.2.2.1,
                       bid_order_counts := s.2.2.2.1 }, s.2.2.2.2)
    else
      if order.is_buy then
        let s := matchLoop true askLt (fun bp => bp ≤ order.price)
          (d.asks.length + 1) order d.orders d.asks d.ask_order_counts []
        let o' := s.1
        if 0 < o'.quantity then
          (o', { d with
            orders := s.2.1 ++ [(o'.order_id, o')],
            asks := s.2.2.1, ask_order_counts := s.2.2.2.1,
            bids := ladSet bidLt d.bids o'.price
              (u64add (mapGetD d.bids o'.price) o'.quantity),
            bid_order_counts := ladSet askLt d.bid_order_counts o'.price
              (u64add (mapGetD d.bid_order_counts o'.price) 1) }, s.2.2.2.2)
        else
          (o', { d with orders := s.2.1, asks := s.2.2.1,
                        ask_order_counts := s.2.2.2.1 }, s.2.2.2.2)
      else
        let s := matchLoop false bidLt (fun bp => order.price ≤ bp)
          (d.bids.length + 1) order d.orders d.bids d.bid_order_counts []
        let o' := s.1
        if 0 < o'.quantity then
          (o', { d with
            orders := s.2.1 ++ [(o'.order_id, o')],
            bids := s.2.2.1, bid_order_counts := s.2.2.2.1,
            asks := ladSet askLt d.asks o'.price
              (u64add (mapGetD d.asks o'.price) o'.quantity),
            ask_order_counts := ladSet askLt d.ask_order_counts o'.price
              (u64add (mapGetD d.ask_order_counts o'.price) 1) }, s.2.2.2.2)
        else
          (o', { d with orders := s.2.1, bids := s.2.2.1,
                        bid_order_counts := s.2.2.2.1 }, s.2.2.2.2)

/-- `OrderBook::add_order` (state and returned trade vector). -/
def add_order (d : OrderBookData) (order : Order) : OrderBookData × List Trade :=
  let r := add_order_full d order
  (r.2.1, r.2.2)

/-- The ladder half of cancellation/amendment for one side: look up the level
at the order's price; erase both level and count when the aggregate would drop
to (or below) zero, otherwise decrement aggregate and count. -/
def ladderRemove (lt : Int → Int → Bool) (lad cnts : List (Int × Nat))
    (p : Int) (qty : Nat) : List (Int × Nat) × List (Int × Nat) :=
  match mapFind lad p with
  | none => (lad, cnts)
  | some v =>
    if v ≤ qty then (mapErase lad p, mapErase cnts p)
    else (ladSet lt lad p (v - qty), ladSet askLt cnts p (u64sub (mapGetD cnts p) 1))

/-- `OrderBook::cancel_order`. -/
def cancel_order (d : OrderBookData) (order_id : Nat) : OrderBookData × Bool :=
  match regFind d.orders order_id with
  | none => (d, false)
  | some o =>
    let d1 :=
      if o.order_type = OrderType.LIMIT then
        if o.is_buy then
          let lc := ladderRemove bidLt d.bids d.bid_order_counts o.price o.quantity
          { d with bids := lc.1, bid_order_counts := lc.2 }
        else
          let lc := ladderRemove askLt d.asks d.ask_order_counts o.price o.quantity
          { d with asks := lc.1, ask_order_counts := lc.2 }
      else d
    ({ d1 with orders := regErase d1.orders order_id }, true)

/-- `OrderBook::amend_order`: ladder half of cancellation at the old terms,
in-place overwrite of price/quantity, then re-add at the new terms.  A
non-LIMIT target returns `true` without mutation. -/
def amend_order (d : OrderBookData) (order_id : Nat) (new_price : Int)
    (new_quantity : Nat) : OrderBookData × Bool :=
  match regFind d.orders order_id with
  | none => (d, false)
  | some o =>
    if o.order_type = OrderType.LIMIT then
      let d1 :=
        if o.is_buy then
          let lc := ladderRemove bidLt d.bids d.bid_order_counts o.price o.quantity
          { d with bids := lc.1, bid_order_counts := lc.2 }
        else
          let lc := ladderRemove askLt d.asks d.ask_order_counts o.price o.quantity
          { d with asks := lc.1, ask_order_counts := lc.2 }
      let o' : Order := { o with price := new_price, quantity := new_quantity }
      let d2 := { d1 with orders := regSet d1.orders order_id o' }
      let d3 :=
        if o.is_buy then
          { d2 with
            bids := ladSet bidLt d2.bids new_price
              (u64add (mapGetD d2.bids new_price) new_quantity),
            bid_order_counts := ladSet askLt d2.bid_order_counts new_price
              (u64add (mapGetD d2.bid_order_counts new_price) 1) }
        else
          { d2 with
            asks := ladSet askLt d2.asks new_price
              (u64add (mapGetD d2.asks new_price) new_quantity),
            ask_order_counts := ladSet askLt d2.ask_order_counts new_price
              (u64add (mapGetD d2.ask_order_counts new_price) 1) }
      (d3, true)
    else (d, true)

/-- `OrderBook::get_best_bid` (`0.0` when the bid ladder is empty). -/
def get_best_bid (d : OrderBookData) : Int :=
  match d.bids with
  | [] => 0
  | (p, _) :: _ => p

/-- `OrderBook::get_best_ask` (`0.0` when the ask ladder is empty). -/
def get_best_ask (d : OrderBookData) : Int :=
  match d.asks with
  | [] => 0
  | (p, _) :: _ => p

/-- `OrderBook::order_exists`. -/
def order_exists (d : OrderBookData) (order_id : Nat) : Bool :=
  (regFind d.orders order_id).isSome

/-- `OrderBook::get_snapshot`: up to `depth` levels per side paired with their
order counts (`counts.at(price)`; on invariant states the key is present, and
`mapGetD` reads that value). -/
def get_snapshot (d : OrderBookData) (depth : Nat) :
    List PriceLevel × List PriceLevel :=
  ((d.bids.take depth).map (fun e => ⟨e.1, e.2, mapGetD d.bid_order_counts e.1⟩),
   (d.asks.take depth).map (fun e => ⟨e.1, e.2, mapGetD d.ask_order_counts e.1⟩))

/-- `OrderBook::get_price_levels` = `get_snapshot(1000, ...)`. -/
def get_price_levels (d : OrderBookData) : List PriceLevel × List PriceLevel :=
  get_snapshot d 1000

/-! ## Derived quantities used by the specification -/

/-- Whether `o` is a resting order of side `b` (buy = `true`) at price `p`:
the population the ladder aggregates over, and exactly the candidate filter of
`match_orders` for an aggressor of the opposite side. -/
def atLevel (b : Bool) (p : Int) (o : Order) : Prop :=
  o.is_buy = b ∧ o.order_type = OrderType.LIMIT ∧ o.price = p

instance (b : Bool) (p : Int) (o : Order) : Decidable (atLevel b p o) := by
  unfold atLevel; infer_instance

/-- Sum of remaining quantities of the side-`b` resting orders at price `p`. -/
def sideQty (b : Bool) (p : Int) (es : List (Nat × Order)) : Nat :=
  ((es.filter (fun e => decide (atLevel b p e.2))).map (fun e => e.2.quantity)).sum

/-- Number of side-`b` resting orders at price `p`. -/
def sideCount (b : Bool) (p : Int) (es : List (Nat × Order)) : Nat :=
  (es.filter (fun e => decide (atLevel b p e.2))).length

/-- Total remaining quantity of all side-`b` resting orders. -/
def sideTotal (b : Bool) (es : List (Nat × Order)) : Nat :=
  ((es.filter (fun e => e.2.is_buy = b ∧ e.2.order_type = OrderType.LIMIT)).map
    (fun e => e.2.quantity)).sum

/-- Keys of an association-list map. -/
def mapKeys (m : List (Int × Nat)) : List Int := m.map (fun e => e.1)

/-- Sortedness of a ladder with respect to its comparator. -/
def ladSorted (lt : Int → Int → Bool) (m : List (Int × Nat)) : Prop :=
  m.Pairwise (fun a b => lt a.1 b.1 = true)

/-- Ids stored in the registry. -/
def regKeys (es : List (Nat × Order)) : List Nat := es.map (fun e => e.1)

/-- Contribution of one order to the `(b, p)` level sum. -/
def levelQty (b : Bool) (p : Int) (o : Order) : Nat :=
  if atLevel b p o then o.quantity else 0

/-- Contribution of one order to a side's total resting quantity. -/
def totQty (b : Bool) (o : Order) : Nat :=
  if o.is_buy = b ∧ o.order_type = OrderType.LIMIT then o.quantity else 0

/-! ## Specification predicates for the scan, the loop and the invariant -/

/-- Relation between a registry entry before and after the scan at `(cs, p)`:
id and static fields preserved, quantity only decreased, untouched unless the
entry is a contra-side LIMIT order at `p`. -/
def scanRel (cs : Bool) (p : Int) (a b : Nat × Order) : Prop :=
  b.1 = a.1 ∧ b.2.is_buy = a.2.is_buy ∧ b.2.order_type = a.2.order_type ∧
  b.2.price = a.2.price ∧ b.2.quantity ≤ a.2.quantity ∧
  (¬ atLevel cs p a.2 → b = a)

/-- Frame/shape/conservation facts about one scan, independent of any
invariant hypotheses. -/
structure ScanB (cs : Bool) (p : Int) (es : List (Nat × Order)) (inc : Nat)
    (lad cnts : List (Int × Nat)) (r : ScanResult) : Prop where
  ladF : ∀ q, q ≠ p → mapFind r.lad q = mapFind lad q
  cntF : ∀ q, q ≠ p → mapFind r.cnts q = mapFind cnts q
  shape : List.Forall₂ (scanRel cs p) es r.entries
  rems : ∀ i ∈ r.removals, ∃ o, (i, o) ∈ r.entries ∧ o.quantity = 0 ∧ atLevel cs p o
  monoB : r.incQty ≤ inc
  conserve : r.incQty + (r.trades.map (fun t => t.quantity)).sum = inc
  totals : sideTotal cs r.entries + (inc - r.incQty) = sideTotal cs es

/-- Aggregate-invariant facts about one scan: the ladder level at the match
price tracks the registry sum exactly (given it did before and sums are below
`2^64`), level/count keys stay paired at `p`, a surviving `some 0` level means
the scan was a complete no-op, and a surviving aggressor leaves no contra
quantity at `p`. -/
structure ScanA (cs : Bool) (p : Int) (es : List (Nat × Order)) (inc : Nat)
    (lad cnts : List (Int × Nat)) (r : ScanResult) : Prop where
  agg : mapGetD r.lad p = sideQty cs p r.entries
  consume : sideQty cs p r.entries + (inc - r.incQty) = sideQty cs p es
  pair : (mapFind r.lad p).isSome ↔ (mapFind r.cnts p).isSome
  stall : mapFind r.lad p = some 0 →
    r.lad = lad ∧ r.cnts = cnts ∧ r.entries = es ∧ r.trades = [] ∧
      r.removals = [] ∧ r.incQty = inc
  drained : 0 < r.incQty → ∀ e ∈ r.entries, atLevel cs p e.2 → e.2.quantity = 0
  absent : mapFind lad p = none → mapFind r.lad p = none

/-- Invariant of the matching loop's working view: the contra-side (`cs`)
ladder and count map together with the registry. -/
structure ViewInv (cs : Bool) (lt : Int → Int → Bool)
    (orders : List (Nat × Order)) (lad cnts : List (Int × Nat)) : Prop where
  agg : ∀ p, mapGetD lad p = sideQty cs p orders
  small : ∀ p, sideQty cs p orders < U64
  occ : ∀ p, (mapFind lad p).isSome → ∃ e ∈ orders, atLevel cs p e.2
  pair : ∀ p, (mapFind lad p).isSome ↔ (mapFind cnts p).isSome
  sorted : ladSorted lt lad
  cnts_sorted : ladSorted askLt cnts
  nodup : (regKeys orders).Nodup
  limit : ∀ e ∈ orders, e.2.order_type = OrderType.LIMIT
  qsmall : ∀ e ∈ orders, e.2.quantity < U64

/-- Everything one `match_orders` call guarantees. -/
structure MatchSpec (cs : Bool) (lt : Int → Int → Bool) (p : Int) (o : Order)
    (orders : List (Nat × Order)) (lad cnts : List (Int × Nat)) (o' : Order)
    (orders' : List (Nat × Order)) (lad' cnts' : List (Int × Nat))
    (tr : List Trade) : Prop where
  inv : ViewInv cs lt orders' lad' cnts'
  conserve : o'.quantity + (tr.map (fun t => t.quantity)).sum = o.quantity
  qmono : o'.quantity ≤ o.quantity
  frame : ∀ q, q ≠ p → mapFind lad' q = mapFind lad q
  keysub : ∀ q, (mapFind lad' q).isSome → (mapFind lad q).isSome
  progress : 0 < o'.quantity → mapFind lad' p = none
  others : ∀ b q, b ≠ cs → sideQty b q orders' = sideQty b q orders
  othersOcc : ∀ b q, b ≠ cs → (∃ e ∈ orders, atLevel b q e.2) →
    ∃ e ∈ orders', atLevel b q e.2
  fresh : ∀ i, regFind orders i = none → regFind orders' i = none
  totals : sideTotal cs orders' + (o.quantity - o'.quantity) = sideTotal cs orders
  noop : tr = [] → orders' = orders ∧ lad' = lad ∧ cnts' = cnts ∧
    o'.quantity = o.quantity

/-- Everything the matching `while` loop guarantees, given enough fuel. -/
structure LoopSpec (cs : Bool) (lt : Int → Int → Bool) (crossOK : Int → Bool)
    (o : Order) (orders : List (Nat × Order)) (lad cnts : List (Int × Nat))
    (tr0 : List Trade) (o' : Order) (orders' : List (Nat × Order))
    (lad' cnts' : List (Int × Nat)) (tr' : List Trade) : Prop where
  inv : ViewInv cs lt orders' lad' cnts'
  static : o'.order_id = o.order_id ∧ o'.is_buy = o.is_buy ∧
    o'.order_type = o.order_type ∧ o'.price = o.price
  qmono : o'.quantity ≤ o.quantity
  trades : ∃ trN, tr' = tr0 ++ trN ∧
    o'.quantity + (trN.map (fun t => t.quantity)).sum = o.quantity ∧
    (trN = [] → orders' = orders ∧ lad' = lad ∧ cnts' = cnts ∧
      o'.quantity = o.quantity)
  keysub : ∀ q, (mapFind lad' q).isSome → (mapFind lad q).isSome
  others : ∀ b q, b ≠ cs → sideQty b q orders' = sideQty b q orders
  othersOcc : ∀ b q, b ≠ cs → (∃ e ∈ orders, atLevel b q e.2) →
    ∃ e ∈ orders', atLevel b q e.2
  fresh : ∀ i, regFind orders i = none → regFind orders' i = none
  totals : sideTotal cs orders' + (o.quantity - o'.quantity) = sideTotal cs orders
  post : 0 < o'.quantity → lad' = [] ∨
    ∃ bp bv rest, lad' = (bp, bv) :: rest ∧ crossOK bp = false

/-! ## The book invariant -/

/-- The documented book invariants (spec §3), as one view per side: aggregate
consistency, level sums below `2^64`, occupancy of every ladder key, ladder /
count key pairing, sortedness, and a LIMIT-only registry with unique ids. -/
structure BookInv (d : OrderBookData) : Prop where
  bidV : ViewInv true bidLt d.orders d.bids d.bid_order_counts
  askV : ViewInv false askLt d.orders d.asks d.ask_order_counts

/-! ## Zero-aggregate-entry freedom (claim C2 machinery) -/

/-- No bid or ask ladder entry carries a zero aggregate. -/
def NoZeroEntry (d : OrderBookData) : Prop :=
  (∀ e ∈ d.bids, e.2 ≠ 0) ∧ (∀ e ∈ d.asks, e.2 ≠ 0)

instance (d : OrderBookData) : Decidable (NoZeroEntry d) := by
  unfold NoZeroEntry; infer_instance

/-! ## Crossing (claim C3 machinery) -/

/-- The book is uncrossed: one side empty, or best bid strictly below best
ask (spec §8, "no residual crossing"). -/
def uncrossed (d : OrderBookData) : Prop :=
  d.bids = [] ∨ d.asks = [] ∨ get_best_bid d < get_best_ask d

instance (d : OrderBookData) : Decidable (uncrossed d) := by
  unfold uncrossed; infer_instance

/-- Head key of a ladder (`0` when empty), the list-level view of
`get_best_bid`/`get_best_ask`. -/
def bestKey (m : List (Int × Nat)) : Int :=
  match m with
  | [] => 0
  | (p, _) :: _ => p

/-! ## Concrete book states used as witnesses and counterexamples -/

/-- A book holding a single resting buy LIMIT order (id 1, price 10, qty 5). -/
def oneOrderBook : OrderBookData :=
  (add_order emptyBook ⟨1, true, OrderType.LIMIT, 10, 5⟩).1

/-- A book holding a single resting sell LIMIT order (id 1, price 10, qty 5). -/
def askBook : OrderBookData :=
  (add_order emptyBook ⟨1, false, OrderType.LIMIT, 10, 5⟩).1

/-- A book whose single resting bid sits at the genuine price 0. -/
def zeroPriceBook : OrderBookData :=
  (add_order emptyBook ⟨1, true, OrderType.LIMIT, 0, 1⟩).1

/-- A reachable-shaped book with 1001 distinct bid price levels. -/
def wideBook : OrderBookData :=
  { orders := (List.range 1001).map
      (fun k => (k + 1, ⟨k + 1, true, OrderType.LIMIT, (1000 : Int) - k, 1⟩)),
    bids := (List.range 1001).map (fun k => ((1000 : Int) - k, 1)),
    asks := [],
    bid_order_counts := (List.range 1001).map (fun k => ((k : Int), 1)),
    ask_order_counts := [] }

/-- The state reached from the empty book by resting two bids at price 10 and
then crossing one of them out with a sell: the bid level survives with half
its quantity, but its order count is never decremented. -/
def c1State : OrderBookData :=
  (add_order (add_order (add_order emptyBook
    ⟨1, true, OrderType.LIMIT, 10, 5⟩).1
    ⟨2, true, OrderType.LIMIT, 10, 5⟩).1
    ⟨3, false, OrderType.LIMIT, 10, 5⟩).1

/-- The state reached by resting a bid of quantity 5 at price 10 and then
amending it to quantity 0 at price 11: the re-add step installs a bid ladder
entry with aggregate 0. -/
def c2State : OrderBookData :=
  (amend_order (add_order emptyBook
    ⟨1, true, OrderType.LIMIT, 10, 5⟩).1 1 11 0).1

/-- The crossed book reached by resting a bid at 10, an ask at 20, and then
amending the bid's price to 30 (amendment never re-matches). -/
def preC3 : OrderBookData :=
  (amend_order (add_order (add_order emptyBook
    ⟨1, true, OrderType.LIMIT, 10, 5⟩).1
    ⟨2, false, OrderType.LIMIT, 20, 5⟩).1 1 30 5).1

/-! ## Theorems -/
/-! ## Arithmetic lemmas for the `uint64_t` embedding -/

theorem U64_pos : 0 < U64 := by decide

theorem u64add_exact {a b : Nat} (h : a + b < U64) : u64add a b = a + b := by
  simp [u64add, Nat.mod_eq_of_lt h]

theorem u64add_lt (a b : Nat) : u64add a b < U64 :=
  Nat.mod_lt _ U64_pos

theorem u64sub_lt (a b : Nat) : u64sub a b < U64 :=
  Nat.mod_lt _ U64_pos

theorem u64sub_exact {a b : Nat} (hba : b ≤ a) (ha : a < U64) :
    u64sub a b = a - b := by
  have hb : b % U64 = b := Nat.mod_eq_of_lt (lt_of_le_of_lt hba ha)
  have h1 : a + (U64 - b) = (a - b) + U64 := by omega
  simp only [u64sub, hb, h1, Nat.add_mod_right]
  exact Nat.mod_eq_of_lt (by omega)

theorem u64sub_u64add_cancel {a b : Nat} (ha : a < U64) (hb : b < U64) :
    u64sub (u64add a b) b = a := by
  have hb' : b % U64 = b := Nat.mod_eq_of_lt hb
  simp only [u64sub, u64add, hb']
  rcases Nat.lt_or_ge (a + b) U64 with h | h
  · rw [Nat.mod_eq_of_lt h]
    have h1 : a + b + (U64 - b) = a + U64 := by omega
    rw [h1, Nat.add_mod_right, Nat.mod_eq_of_lt ha]
  · have hlt : a + b < 2 * U64 := by omega
    have h1 : (a + b) % U64 = a + b - U64 := by
      have := Nat.mod_eq_sub_mod (le_trans (Nat.le_refl _) h)
      rw [Nat.mod_eq_sub_mod h, Nat.mod_eq_of_lt (by omega)]
    rw [h1]
    have h2 : a + b - U64 + (U64 - b) = a := by omega
    rw [h2, Nat.mod_eq_of_lt ha]

/-! ## Association-list map lemmas -/

theorem mapFind_ladSet_self (lt : Int → Int → Bool) (m : List (Int × Nat))
    (p : Int) (v : Nat) : mapFind (ladSet lt m p v) p = some v := by
  induction m with
  | nil => simp [ladSet, mapFind]
  | cons e rest ih =>
    obtain ⟨q, w⟩ := e
    by_cases hpq : p = q
    · simp [ladSet, hpq, mapFind]
    · by_cases hlt : lt p q
      · simp [ladSet, hpq, hlt, mapFind]
      · simp [ladSet, hpq, hlt, mapFind, ih]

theorem mapFind_ladSet_ne (lt : Int → Int → Bool) (m : List (Int × Nat))
    (p q : Int) (v : Nat) (h : q ≠ p) :
    mapFind (ladSet lt m p v) q = mapFind m q := by
  induction m with
  | nil => simp [ladSet, mapFind, h]
  | cons e rest ih =>
    obtain ⟨r, w⟩ := e
    by_cases hpr : p = r
    · subst hpr
      simp [ladSet, mapFind, h]
    · by_cases hlt : lt p r
      · simp [ladSet, hpr, hlt, mapFind, h]
      · by_cases hqr : q = r
        · simp [ladSet, hpr, hlt, mapFind, hqr]
        · simp [ladSet, hpr, hlt, mapFind, hqr, ih]

theorem mapFind_mapErase_self (m : List (Int × Nat)) (p : Int) :
    mapFind (mapErase m p) p = none := by
  induction m with
  | nil => simp [mapErase, mapFind]
  | cons e rest ih =>
    obtain ⟨q, w⟩ := e
    by_cases hqp : q = p
    · simpa [mapErase, hqp] using ih
    · simpa [mapErase, mapFind, hqp, Ne.symm hqp] using ih

theorem mapFind_mapErase_ne (m : List (Int × Nat)) (p q : Int) (h : q ≠ p) :
    mapFind (mapErase m p) q = mapFind m q := by
  induction m with
  | nil => simp [mapErase, mapFind]
  | cons e rest ih =>
    obtain ⟨r, w⟩ := e
    by_cases hrp : r = p
    · subst hrp
      simpa [mapErase, mapFind, h] using ih
    · by_cases hqr : q = r
      · simp [mapErase, mapFind, hrp, hqr]
      · simpa [mapErase, mapFind, hrp, hqr] using ih

theorem mapGetD_ladSet_self (lt : Int → Int → Bool) (m : List (Int × Nat))
    (p : Int) (v : Nat) : mapGetD (ladSet lt m p v) p = v := by
  simp [mapGetD, mapFind_ladSet_self]

theorem mapGetD_ladSet_ne (lt : Int → Int → Bool) (m : List (Int × Nat))
    (p q : Int) (v : Nat) (h : q ≠ p) :
    mapGetD (ladSet lt m p v) q = mapGetD m q := by
  simp [mapGetD, mapFind_ladSet_ne _ _ _ _ _ h]

theorem mapGetD_mapErase_self (m : List (Int × Nat)) (p : Int) :
    mapGetD (mapErase m p) p = 0 := by
  simp [mapGetD, mapFind_mapErase_self]

theorem mapGetD_mapErase_ne (m : List (Int × Nat)) (p q : Int) (h : q ≠ p) :
    mapGetD (mapErase m p) q = mapGetD m q := by
  simp [mapGetD, mapFind_mapErase_ne _ _ _ h]

theorem mapFind_isSome_iff_mem (m : List (Int × Nat)) (p : Int) :
    (mapFind m p).isSome ↔ p ∈ mapKeys m := by
  induction m with
  | nil => simp [mapFind, mapKeys]
  | cons e rest ih =>
    obtain ⟨q, w⟩ := e
    by_cases hpq : p = q
    · simp [mapFind, hpq, mapKeys]
    · simpa [mapFind, hpq, mapKeys] using ih

theorem mapFind_eq_none_iff (m : List (Int × Nat)) (p : Int) :
    mapFind m p = none ↔ p ∉ mapKeys m := by
  rw [← mapFind_isSome_iff_mem]
  cases mapFind m p <;> simp

theorem ladSorted_mapErase (lt : Int → Int → Bool) (m : List (Int × Nat))
    (p : Int) (h : ladSorted lt m) : ladSorted lt (mapErase m p) :=
  List.Pairwise.sublist (List.filter_sublist m) h

theorem ladSorted_ladSet (lt : Int → Int → Bool)
    (htr : ∀ a b c : Int, lt a b = true → lt b c = true → lt a c = true)
    (htot : ∀ a b : Int, a ≠ b → lt a b = true ∨ lt b a = true)
    (m : List (Int × Nat)) (p : Int) (v : Nat) (h : ladSorted lt m) :
    ladSorted lt (ladSet lt m p v) := by
  induction m with
  | nil => simp [ladSet, ladSorted]
  | cons e rest ih =>
    obtain ⟨q, w⟩ := e
    rw [ladSorted, List.pairwise_cons] at h
    obtain ⟨hq, hrest⟩ := h
    by_cases hpq : p = q
    · subst hpq
      simp only [ladSet, if_pos rfl]
      exact List.Pairwise.cons hq hrest
    · by_cases hlt : lt p q
      · simp only [ladSet, if_neg hpq, if_pos hlt]
        refine List.Pairwise.cons ?_ (List.Pairwise.cons hq hrest)
        intro e he
        rcases List.mem_cons.mp he with rfl | he'
        · exact hlt
        · exact htr _ _ _ hlt (hq e he')
      · simp only [ladSet, if_neg hpq, if_neg hlt]
        refine List.Pairwise.cons ?_ (ih hrest)
        have hqp : lt q p = true := by
          rcases htot p q hpq with h1 | h1
          · exact absurd h1 hlt
          · exact h1
        intro e he
        by_cases hep : e.1 = p
        · have : mapFind (ladSet lt rest p v) e.1 = some e.2 ∨ True := Or.inr trivial
          cases e with
          | mk e1 e2 => simp only at hep; subst hep; exact hqp
        · -- e comes from rest: its key is a key of rest
          have hkey : e.1 ∈ mapKeys (ladSet lt rest p v) :=
            List.mem_map_of_mem (fun x => x.1) he
          have hkeys : e.1 ∈ mapKeys rest := by
            have hsome : (mapFind (ladSet lt rest p v) e.1).isSome :=
              (mapFind_isSome_iff_mem _ _).mpr hkey
            rw [mapFind_ladSet_ne lt rest p e.1 v hep] at hsome
            exact (mapFind_isSome_iff_mem _ _).mp hsome
          obtain ⟨e', he', hkeq⟩ := List.mem_map.mp hkeys
          have := hq e' he'
          simpa [← hkeq] using this

theorem ladSorted_nodup_keys (lt : Int → Int → Bool)
    (hirr : ∀ a : Int, lt a a = false) (m : List (Int × Nat))
    (h : ladSorted lt m) : (mapKeys m).Nodup := by
  induction m with
  | nil => simp [mapKeys]
  | cons e rest ih =>
    rw [ladSorted, List.pairwise_cons] at h
    obtain ⟨hh, hrest⟩ := h
    rw [mapKeys, List.map_cons, List.nodup_cons]
    refine ⟨?_, ih hrest⟩
    intro hmem
    obtain ⟨e', he', hkeq⟩ := List.mem_map.mp hmem
    have := hh e' he'
    rw [← hkeq] at this
    rw [hirr] at this
    exact Bool.noConfusion this

/-- Strictly shrinking key sets shrink the list length (keys nodup). -/
theorem length_lt_of_keys_lt (m m' : List (Int × Nat)) (p : Int)
    (hnd' : (mapKeys m').Nodup)
    (hsub : ∀ q, (mapFind m' q).isSome → (mapFind m q).isSome)
    (hp : (mapFind m p).isSome) (hp' : mapFind m' p = none) :
    m'.length < m.length := by
  have hsub' : mapKeys m' ⊆ (mapKeys m).erase p := by
    intro q hq
    have hq1 : (mapFind m' q).isSome := (mapFind_isSome_iff_mem _ _).mpr hq
    have hq2 : q ∈ mapKeys m := (mapFind_isSome_iff_mem _ _).mp (hsub q hq1)
    have hqp : q ≠ p := by
      intro h
      subst h
      rw [hp'] at hq1
      exact Bool.noConfusion hq1
    exact (List.mem_erase_of_ne hqp).mpr hq2
  have h1 : (mapKeys m').length ≤ ((mapKeys m).erase p).length :=
    List.Subperm.length_le (List.subperm_of_subset hnd' hsub')
  have hmem : p ∈ mapKeys m := (mapFind_isSome_iff_mem _ _).mp hp
  have h2 : ((mapKeys m).erase p).length = (mapKeys m).length - 1 :=
    List.length_erase_of_mem hmem
  have h3 : 0 < (mapKeys m).length := List.length_pos.mpr (by
    intro h; rw [h] at hmem; exact List.not_mem_nil _ hmem)
  have hlen : (mapKeys m').length = m'.length := List.length_map _ _
  have hlen2 : (mapKeys m).length = m.length := List.length_map _ _
  omega

theorem regFind_isSome_iff_mem (es : List (Nat × Order)) (i : Nat) :
    (regFind es i).isSome ↔ i ∈ regKeys es := by
  induction es with
  | nil => simp [regFind, regKeys]
  | cons e rest ih =>
    obtain ⟨j, o⟩ := e
    by_cases hij : i = j
    · simp [regFind, hij, regKeys]
    · simpa [regFind, hij, regKeys] using ih

theorem regFind_eq_none_iff (es : List (Nat × Order)) (i : Nat) :
    regFind es i = none ↔ i ∉ regKeys es := by
  rw [← regFind_isSome_iff_mem]
  cases regFind es i <;> simp

theorem regFind_eq_some_mem {es : List (Nat × Order)} {i : Nat} {o : Order}
    (h : regFind es i = some o) : (i, o) ∈ es := by
  induction es with
  | nil => simp [regFind] at h
  | cons e rest ih =>
    obtain ⟨j, o'⟩ := e
    by_cases hij : i = j
    · subst hij
      rw [regFind, if_pos rfl] at h
      obtain rfl : o' = o := Option.some.inj h
      exact List.mem_cons_self _ _
    · rw [regFind, if_neg hij] at h
      exact List.mem_cons_of_mem _ (ih h)

theorem regFind_append (es fs : List (Nat × Order)) (i : Nat) :
    regFind (es ++ fs) i =
      match regFind es i with
      | some o => some o
      | none => regFind fs i := by
  induction es with
  | nil => simp [regFind]
  | cons e rest ih =>
    obtain ⟨j, o⟩ := e
    by_cases hij : i = j
    · simp [regFind, hij]
    · simpa [regFind, hij] using ih

theorem regFind_regErase_self (es : List (Nat × Order)) (i : Nat) :
    regFind (regErase es i) i = none := by
  induction es with
  | nil => simp [regErase, regFind]
  | cons e rest ih =>
    obtain ⟨j, o⟩ := e
    by_cases hji : j = i
    · simpa [regErase, hji] using ih
    · simpa [regErase, regFind, hji, Ne.symm hji] using ih

theorem regFind_regErase_ne (es : List (Nat × Order)) (i j : Nat) (h : j ≠ i) :
    regFind (regErase es i) j = regFind es j := by
  induction es with
  | nil => simp [regErase, regFind]
  | cons e rest ih =>
    obtain ⟨k, o⟩ := e
    by_cases hki : k = i
    · subst hki
      simpa [regErase, regFind, h] using ih
    · by_cases hjk : j = k
      · simp [regErase, regFind, hki, hjk]
      · simpa [regErase, regFind, hki, hjk] using ih

theorem regSet_cons (e : Nat × Order) (rest : List (Nat × Order)) (i : Nat)
    (o' : Order) :
    regSet (e :: rest) i o' =
      (if e.1 = i then (i, o') else e) :: regSet rest i o' := rfl

theorem regFind_regSet_self {es : List (Nat × Order)} {i : Nat} {o : Order}
    (o' : Order) (h : regFind es i = some o) :
    regFind (regSet es i o') i = some o' := by
  induction es with
  | nil => simp [regFind] at h
  | cons e rest ih =>
    obtain ⟨j, oo⟩ := e
    rw [regSet_cons]
    by_cases hji : j = i
    · rw [if_pos hji, regFind, if_pos rfl]
    · rw [if_neg hji, regFind, if_neg (fun hh => hji hh.symm)]
      rw [regFind, if_neg (fun hh => hji hh.symm)] at h
      exact ih h

theorem regFind_regSet_ne (es : List (Nat × Order)) (i j : Nat) (o' : Order)
    (h : j ≠ i) : regFind (regSet es i o') j = regFind es j := by
  induction es with
  | nil => simp [regSet, regFind]
  | cons e rest ih =>
    obtain ⟨k, o⟩ := e
    rw [regSet_cons]
    by_cases hki : k = i
    · rw [if_pos hki, regFind, if_neg (by simpa [hki] using h), regFind,
        if_neg (by simpa [hki] using h)]
      exact ih
    · rw [if_neg hki]
      by_cases hjk : j = k
      · rw [regFind, if_pos hjk, regFind, if_pos hjk]
      · rw [regFind, if_neg hjk, regFind, if_neg hjk]
        exact ih

theorem regKeys_regSet (es : List (Nat × Order)) (i : Nat) (o : Order) :
    regKeys (regSet es i o) = regKeys es := by
  induction es with
  | nil => simp [regSet, regKeys]
  | cons e rest ih =>
    obtain ⟨j, oo⟩ := e
    by_cases hji : j = i
    · subst hji
      simpa [regSet, regKeys] using ih
    · simpa [regSet, regKeys, hji] using ih

theorem foldl_regErase (rs : List Nat) (es : List (Nat × Order)) :
    rs.foldl (fun es i => regErase es i) es =
      es.filter (fun e => decide (e.1 ∉ rs)) := by
  induction rs generalizing es with
  | nil => simp
  | cons r rs' ih =>
    rw [List.foldl_cons, ih, regErase, List.filter_filter]
    apply List.filter_congr
    intro e _
    by_cases h1 : e.1 = r <;> by_cases h2 : e.1 ∈ rs' <;> simp [h1, h2]

theorem sideQty_nil (b : Bool) (p : Int) : sideQty b p [] = 0 := rfl

theorem sideQty_cons (b : Bool) (p : Int) (e : Nat × Order)
    (es : List (Nat × Order)) :
    sideQty b p (e :: es) = levelQty b p e.2 + sideQty b p es := by
  by_cases h : atLevel b p e.2 <;> simp [sideQty, levelQty, h]

theorem sideQty_append (b : Bool) (p : Int) (es fs : List (Nat × Order)) :
    sideQty b p (es ++ fs) = sideQty b p es + sideQty b p fs := by
  induction es with
  | nil => simp [sideQty]
  | cons e rest ih => rw [List.cons_append, sideQty_cons, sideQty_cons, ih]; omega

theorem levelQty_le_sideQty {b : Bool} {p : Int} {es : List (Nat × Order)}
    {e : Nat × Order} (h : e ∈ es) : levelQty b p e.2 ≤ sideQty b p es := by
  induction es with
  | nil => simp at h
  | cons f rest ih =>
    rcases List.mem_cons.mp h with rfl | h'
    · rw [sideQty_cons]; omega
    · rw [sideQty_cons]
      have := ih h'
      omega

theorem sideQty_pos_exists {b : Bool} {p : Int} {es : List (Nat × Order)}
    (h : 0 < sideQty b p es) :
    ∃ e ∈ es, atLevel b p e.2 ∧ 0 < e.2.quantity := by
  induction es with
  | nil => simp [sideQty] at h
  | cons e rest ih =>
    rw [sideQty_cons] at h
    by_cases he : atLevel b p e.2
    · by_cases hq : 0 < e.2.quantity
      · exact ⟨e, List.mem_cons_self _ _, he, hq⟩
      · have : levelQty b p e.2 = 0 := by simp [levelQty, he]; omega
        rw [this, Nat.zero_add] at h
        obtain ⟨f, hf, hfa, hfq⟩ := ih h
        exact ⟨f, List.mem_cons_of_mem _ hf, hfa, hfq⟩
    · have : levelQty b p e.2 = 0 := by simp [levelQty, he]
      rw [this, Nat.zero_add] at h
      obtain ⟨f, hf, hfa, hfq⟩ := ih h
      exact ⟨f, List.mem_cons_of_mem _ hf, hfa, hfq⟩

theorem sideQty_filter_zeros {b : Bool} {p : Int} {es : List (Nat × Order)}
    {f : Nat × Order → Bool} (h : ∀ e ∈ es, f e = false → e.2.quantity = 0) :
    sideQty b p (es.filter f) = sideQty b p es := by
  induction es with
  | nil => simp
  | cons e rest ih =>
    have hrest : ∀ e ∈ rest, f e = false → e.2.quantity = 0 := by
      intro e' he' hf'
      exact h e' (List.mem_cons_of_mem _ he') hf'
    by_cases hf : f e
    · rw [List.filter_cons_of_pos hf, sideQty_cons, sideQty_cons, ih hrest]
    · have hq : e.2.quantity = 0 := h e (List.mem_cons_self _ _) (by simpa using hf)
      rw [List.filter_cons_of_neg (by simpa using hf), sideQty_cons, ih hrest]
      have : levelQty b p e.2 = 0 := by simp [levelQty, hq]
      omega

theorem sideQty_regErase {b : Bool} {p : Int} {es : List (Nat × Order)}
    {i : Nat} {o : Order} (hnd : (regKeys es).Nodup) (h : regFind es i = some o) :
    sideQty b p (regErase es i) + levelQty b p o = sideQty b p es := by
  induction es with
  | nil => simp [regFind] at h
  | cons e rest ih =>
    obtain ⟨j, oo⟩ := e
    rw [regKeys, List.map_cons, List.nodup_cons] at hnd
    obtain ⟨hj, hnd'⟩ := hnd
    by_cases hij : i = j
    · subst hij
      rw [regFind, if_pos rfl] at h
      have hoo : oo = o := Option.some.inj h
      have hre : regErase ((i, oo) :: rest) i = rest := by
        rw [regErase, List.filter_cons_of_neg (by simp)]
        rw [List.filter_eq_self]
        intro e he
        simp only [ne_eq, decide_eq_true_eq]
        intro hei
        exact hj (by rw [← hei]; exact List.mem_map.mpr ⟨e, he, rfl⟩)
      rw [hre, sideQty_cons]
      simp only [hoo]
      omega
    · simp only [regFind, if_neg hij] at h
      have hre : regErase ((j, oo) :: rest) i = (j, oo) :: regErase rest i := by
        simp [regErase, Ne.symm hij]
      rw [hre, sideQty_cons, sideQty_cons]
      have := ih hnd' h
      omega

theorem sideQty_regSet {b : Bool} {p : Int} {es : List (Nat × Order)}
    {i : Nat} {o : Order} (o' : Order) (hnd : (regKeys es).Nodup)
    (h : regFind es i = some o) :
    sideQty b p (regSet es i o') + levelQty b p o =
      sideQty b p es + levelQty b p o' := by
  induction es with
  | nil => simp [regFind] at h
  | cons e rest ih =>
    obtain ⟨j, oo⟩ := e
    rw [regKeys, List.map_cons, List.nodup_cons] at hnd
    obtain ⟨hj, hnd'⟩ := hnd
    by_cases hij : i = j
    · subst hij
      rw [regFind, if_pos rfl] at h
      have hoo : oo = o := Option.some.inj h
      have hset : regSet ((i, oo) :: rest) i o' = (i, o') :: rest := by
        rw [regSet_cons, if_pos rfl]
        congr 1
        have : regSet rest i o' = rest.map id := by
          apply List.map_congr_left
          intro e he
          have hne : e.1 ≠ i := by
            intro hei
            exact hj (by rw [← hei]; exact List.mem_map.mpr ⟨e, he, rfl⟩)
          simp [hne]
        rw [this, List.map_id]
      rw [hset, sideQty_cons, sideQty_cons]
      simp only [hoo]
      omega
    · simp only [regFind, if_neg hij] at h
      have hset : regSet ((j, oo) :: rest) i o' = (j, oo) :: regSet rest i o' := by
        rw [regSet_cons]
        simp [Ne.symm hij]
      rw [hset, sideQty_cons, sideQty_cons]
      have := ih hnd' h
      omega

/-! ## Further small map lemmas -/

theorem mapErase_find_none {m : List (Int × Nat)} {p : Int}
    (h : mapFind m p = none) : mapErase m p = m := by
  rw [mapErase, List.filter_eq_self]
  intro e he
  simp only [ne_eq, decide_eq_true_eq]
  intro hep
  have : p ∈ mapKeys m := by
    rw [← hep]
    exact List.mem_map.mpr ⟨e, he, rfl⟩
  rw [mapFind_eq_none_iff] at h
  exact h this

theorem mapGetD_pos_isSome {m : List (Int × Nat)} {p : Int}
    (h : 0 < mapGetD m p) : (mapFind m p).isSome := by
  rw [mapGetD] at h
  cases hf : mapFind m p with
  | none => rw [hf] at h; simp at h
  | some v => simp

theorem mapFind_getD_eq {m : List (Int × Nat)} {p : Int} {v : Nat}
    (h : mapFind m p = some v) : mapGetD m p = v := by
  simp [mapGetD, h]

theorem sideTotal_cons (b : Bool) (e : Nat × Order) (es : List (Nat × Order)) :
    sideTotal b (e :: es) = totQty b e.2 + sideTotal b es := by
  by_cases h : e.2.is_buy = b ∧ e.2.order_type = OrderType.LIMIT <;>
    simp [sideTotal, totQty, h]

theorem levelQty_le_totQty (b : Bool) (p : Int) (o : Order) :
    levelQty b p o ≤ totQty b o := by
  by_cases h : atLevel b p o
  · obtain ⟨h1, h2, h3⟩ := h
    simp [levelQty, totQty, atLevel, h1, h2, h3]
  · simp [levelQty, h]

theorem scan_specB (buyAgg : Bool) (lt : Int → Int → Bool) (aggId : Nat) (p : Int)
    (es : List (Nat × Order)) (inc : Nat) (lad cnts : List (Int × Nat)) :
    ScanB (!buyAgg) p es inc lad cnts (scanContra buyAgg lt aggId p es inc lad cnts) := by
  induction es generalizing inc lad cnts with
  | nil =>
    rw [scanContra]
    exact ⟨fun q hq => rfl, fun q hq => rfl, List.Forall₂.nil,
      by intro i hi; simp at hi, le_refl _, by simp, by simp⟩
  | cons e rest ih =>
    obtain ⟨oid, o⟩ := e
    simp only [scanContra]
    by_cases hcond : o.is_buy = (!buyAgg) ∧ o.order_type = OrderType.LIMIT ∧
        o.price = p ∧ 0 < inc
    · rw [if_pos hcond]
      obtain ⟨hside, htype, hprice, hinc⟩ := hcond
      have hat : atLevel (!buyAgg) p o := ⟨hside, htype, hprice⟩
      set tq := min inc o.quantity with htq
      have htqi : tq ≤ inc := Nat.min_le_left _ _
      have htqo : tq ≤ o.quantity := Nat.min_le_right _ _
      set o' : Order := { o with quantity := o.quantity - tq } with ho'
      set trade : Trade :=
        if buyAgg then ⟨aggId, oid, p, tq⟩ else ⟨oid, aggId, p, tq⟩ with htr
      have htrq : trade.quantity = tq := by
        rw [htr]; split <;> rfl
      set ladVal := u64sub (mapGetD lad p) tq with hlv
      set lad' := if ladVal = 0 then mapErase lad p else ladSet lt lad p ladVal
        with hlad'
      set cnts' := if ladVal = 0 then mapErase cnts p else cnts with hcnts'
      have hladF : ∀ q, q ≠ p → mapFind lad' q = mapFind lad q := by
        intro q hq
        rw [hlad']
        split
        · exact mapFind_mapErase_ne _ _ _ hq
        · exact mapFind_ladSet_ne _ _ _ _ _ hq
      have hcntF : ∀ q, q ≠ p → mapFind cnts' q = mapFind cnts q := by
        intro q hq
        rw [hcnts']
        split
        · exact mapFind_mapErase_ne _ _ _ hq
        · rfl
      have hrel : scanRel (!buyAgg) p (oid, o) (oid, o') := by
        refine ⟨rfl, rfl, rfl, rfl, ?_, ?_⟩
        · rw [ho']; simp
        · intro hna; exact absurd hat hna
      have hato' : atLevel (!buyAgg) p o' := ⟨hside, htype, hprice⟩
      by_cases hbrk : inc - tq = 0
      · rw [if_pos hbrk]
        refine ⟨hladF, hcntF, ?_, ?_, ?_, ?_, ?_⟩
        · exact List.Forall₂.cons hrel (List.forall₂_same.mpr
            (fun x hx => ⟨rfl, rfl, rfl, rfl, le_refl _, fun h => rfl⟩))
        · intro i hi
          dsimp only at hi
          by_cases hq0 : o'.quantity = 0
          · rw [if_pos hq0] at hi
            rcases List.mem_singleton.mp hi with rfl
            exact ⟨o', List.mem_cons_self _ _, hq0, hato'⟩
          · rw [if_neg hq0] at hi
            simp at hi
        · dsimp only; omega
        · dsimp only
          rw [List.map_cons, List.map_nil, List.sum_cons, List.sum_nil, htrq]
          omega
        · dsimp only
          rw [sideTotal_cons, sideTotal_cons]
          have h1 : totQty (!buyAgg) o' = o.quantity - tq := by
            rw [ho', totQty]; simp [hside, htype]
          have h2 : totQty (!buyAgg) o = o.quantity := by
            rw [totQty]; simp [hside, htype]
          dsimp only
          rw [h1, h2]
          omega
      · rw [if_neg hbrk]
        have B := ih (inc - tq) lad' cnts'
        refine ⟨?_, ?_, ?_, ?_, ?_, ?_, ?_⟩
        · intro q hq
          dsimp only
          rw [B.ladF q hq, hladF q hq]
        · intro q hq
          dsimp only
          rw [B.cntF q hq, hcntF q hq]
        · exact List.Forall₂.cons hrel B.shape
        · intro i hi
          dsimp only at hi
          rcases List.mem_append.mp hi with hi1 | hi2
          · by_cases hq0 : o'.quantity = 0
            · rw [if_pos hq0] at hi1
              rcases List.mem_singleton.mp hi1 with rfl
              exact ⟨o', List.mem_cons_self _ _, hq0, hato'⟩
            · rw [if_neg hq0] at hi1
              simp at hi1
          · obtain ⟨oo, hmem, hqo, hata⟩ := B.rems i hi2
            exact ⟨oo, List.mem_cons_of_mem _ hmem, hqo, hata⟩
        · dsimp only
          have := B.monoB
          omega
        · dsimp only
          rw [List.map_cons, List.sum_cons, htrq]
          have := B.conserve
          have := B.monoB
          omega
        · dsimp only
          rw [sideTotal_cons]
          have h1 : totQty (!buyAgg) o' = o.quantity - tq := by
            rw [ho', totQty]; simp [hside, htype]
          have h2 : sideTotal (!buyAgg) ((oid, o) :: rest) =
              o.quantity + sideTotal (!buyAgg) rest := by
            rw [sideTotal_cons, totQty]; simp [hside, htype]
          rw [h1, h2]
          have := B.totals
          have := B.monoB
          omega
    · rw [if_neg hcond]
      have B := ih inc lad cnts
      refine ⟨?_, ?_, ?_, ?_, ?_, ?_, ?_⟩
      · intro q hq; dsimp only; exact B.ladF q hq
      · intro q hq; dsimp only; exact B.cntF q hq
      · exact List.Forall₂.cons ⟨rfl, rfl, rfl, rfl, le_refl _, fun h => rfl⟩ B.shape
      · intro i hi
        dsimp only at hi
        obtain ⟨oo, hmem, hq0, hata⟩ := B.rems i hi
        exact ⟨oo, List.mem_cons_of_mem _ hmem, hq0, hata⟩
      · dsimp only; exact B.monoB
      · dsimp only; exact B.conserve
      · dsimp only
        rw [sideTotal_cons, sideTotal_cons]
        have := B.totals
        have := B.monoB
        omega

theorem scan_specA (buyAgg : Bool) (lt : Int → Int → Bool) (aggId : Nat) (p : Int)
    (es : List (Nat × Order)) (inc : Nat) (lad cnts : List (Int × Nat))
    (hinc : 0 < inc)
    (h1p : mapGetD lad p = sideQty (!buyAgg) p es)
    (hsm : sideQty (!buyAgg) p es < U64)
    (hpair : (mapFind lad p).isSome ↔ (mapFind cnts p).isSome) :
    ScanA (!buyAgg) p es inc lad cnts (scanContra buyAgg lt aggId p es inc lad cnts) := by
  induction es generalizing inc lad cnts with
  | nil =>
    rw [scanContra]
    exact ⟨h1p, by simp, hpair, fun h => ⟨rfl, rfl, rfl, rfl, rfl, rfl⟩,
      fun h e he => by simp at he, fun h => h⟩
  | cons e rest ih =>
    obtain ⟨oid, o⟩ := e
    simp only [scanContra]
    by_cases hcond : o.is_buy = (!buyAgg) ∧ o.order_type = OrderType.LIMIT ∧
        o.price = p ∧ 0 < inc
    · rw [if_pos hcond]
      obtain ⟨hside, htype, hprice, _⟩ := hcond
      have hat : atLevel (!buyAgg) p o := ⟨hside, htype, hprice⟩
      set tq := min inc o.quantity with htq
      have htqi : tq ≤ inc := Nat.min_le_left _ _
      have htqo : tq ≤ o.quantity := Nat.min_le_right _ _
      set o' : Order := { o with quantity := o.quantity - tq } with ho'
      have ho'q : o'.quantity = o.quantity - tq := rfl
      have hato' : atLevel (!buyAgg) p o' := ⟨hside, htype, hprice⟩
      set v := mapGetD lad p with hvd
      have hv : v = o.quantity + sideQty (!buyAgg) p rest := by
        rw [h1p, sideQty_cons]
        simp [levelQty, hat]
      have hvU : v < U64 := by rw [h1p]; exact hsm
      have hqv : o.quantity ≤ v := by omega
      set ladVal := u64sub v tq with hlv
      have hlve : ladVal = v - tq := u64sub_exact (le_trans htqo hqv) hvU
      set lad' := if ladVal = 0 then mapErase lad p else ladSet lt lad p ladVal
        with hlad'
      set cnts' := if ladVal = 0 then mapErase cnts p else cnts with hcnts'
      have hsum_cons : sideQty (!buyAgg) p ((oid, o) :: rest) =
          o.quantity + sideQty (!buyAgg) p rest := by
        rw [sideQty_cons]; simp [levelQty, hat]
      have hsum_cons' : ∀ fs, sideQty (!buyAgg) p ((oid, o') :: fs) =
          (o.quantity - tq) + sideQty (!buyAgg) p fs := by
        intro fs
        rw [sideQty_cons]
        simp [levelQty, hato', ho'q]
      -- level/count facts at p for the updated maps
      have hlad'getD : mapGetD lad' p = v - tq := by
        rw [hlad']
        by_cases hz : ladVal = 0
        · rw [if_pos hz, mapGetD_mapErase_self]; omega
        · rw [if_neg hz, mapGetD_ladSet_self]; omega
      have hlad'pair : (mapFind lad' p).isSome ↔ (mapFind cnts' p).isSome := by
        rw [hlad', hcnts']
        by_cases hz : ladVal = 0
        · rw [if_pos hz, if_pos hz, mapFind_mapErase_self, mapFind_mapErase_self]
        · rw [if_neg hz, if_neg hz, mapFind_ladSet_self]
          have hvpos : 0 < v := by omega
          have : (mapFind lad p).isSome := mapGetD_pos_isSome (by rw [← hvd]; omega)
          simp [hpair.mp this]
      have hlad'some : ∀ w, mapFind lad' p = some w → w ≠ 0 := by
        intro w hw
        rw [hlad'] at hw
        by_cases hz : ladVal = 0
        · rw [if_pos hz, mapFind_mapErase_self] at hw
          exact Option.noConfusion hw
        · rw [if_neg hz, mapFind_ladSet_self] at hw
          intro hw0
          exact hz (by rw [Option.some.inj hw, hw0])
      by_cases hbrk : inc - tq = 0
      · rw [if_pos hbrk]
        have htqe : tq = inc := by omega
        refine ⟨?_, ?_, ?_, ?_, ?_, ?_⟩
        · dsimp only
          rw [hlad'getD, hsum_cons']
          omega
        · dsimp only
          rw [hsum_cons', hsum_cons]
          omega
        · dsimp only
          exact hlad'pair
        · dsimp only
          intro hsome
          exact absurd rfl (hlad'some 0 hsome)
        · dsimp only
          intro h0
          exact absurd h0 (by omega)
        · dsimp only
          intro hnone
          have hv0 : v = 0 := by
            rw [hvd]
            simp [mapGetD, hnone]
          have : tq = 0 := by omega
          omega
      · rw [if_neg hbrk]
        have htqe : tq = o.quantity := by omega
        have hinc' : 0 < inc - tq := by omega
        have h1p' : mapGetD lad' p = sideQty (!buyAgg) p rest := by
          rw [hlad'getD]; omega
        have hsm' : sideQty (!buyAgg) p rest < U64 := by
          rw [hsum_cons] at *
          omega
        have A := ih (inc - tq) lad' cnts' hinc' h1p' hsm' hlad'pair
        have B := scan_specB buyAgg lt aggId p rest (inc - tq) lad' cnts'
        refine ⟨?_, ?_, ?_, ?_, ?_, ?_⟩
        · dsimp only
          rw [A.agg, hsum_cons']
          omega
        · dsimp only
          rw [hsum_cons', hsum_cons]
          have := A.consume
          have := B.monoB
          omega
        · dsimp only
          exact A.pair
        · dsimp only
          intro hsome
          have hstall := A.stall hsome
          rw [hstall.1] at hsome
          exact absurd rfl (hlad'some 0 hsome)
        · dsimp only
          intro h0 e he hate
          rcases List.mem_cons.mp he with rfl | he'
          · show o.quantity - tq = 0
            omega
          · exact A.drained h0 e he' hate
        · dsimp only
          intro hnone
          have hv0 : v = 0 := by
            rw [hvd]
            simp [mapGetD, hnone]
          have htq0 : tq = 0 := by omega
          have hlz : ladVal = 0 := by omega
          have hlad'e : lad' = lad := by
            rw [hlad', if_pos hlz]
            exact mapErase_find_none hnone
          apply A.absent
          rw [hlad'e]
          exact hnone
    · rw [if_neg hcond]
      have hnat : ¬ atLevel (!buyAgg) p o := by
        intro hat
        exact hcond ⟨hat.1, hat.2.1, hat.2.2, hinc⟩
      have hsum_cons : sideQty (!buyAgg) p ((oid, o) :: rest) =
          sideQty (!buyAgg) p rest := by
        rw [sideQty_cons]
        simp [levelQty, hnat]
      have h1p' : mapGetD lad p = sideQty (!buyAgg) p rest := by
        rw [h1p, hsum_cons]
      have hsm' : sideQty (!buyAgg) p rest < U64 := by
        rw [hsum_cons] at hsm
        exact hsm
      have A := ih inc lad cnts hinc h1p' hsm' hpair
      refine ⟨?_, ?_, ?_, ?_, ?_, ?_⟩
      · dsimp only
        rw [A.agg, sideQty_cons]
        simp [levelQty, hnat]
      · dsimp only
        rw [sideQty_cons, hsum_cons]
        have := A.consume
        simp only [levelQty, if_neg hnat]
        omega
      · dsimp only
        exact A.pair
      · dsimp only
        intro hsome
        obtain ⟨he1, he2, he3, he4, he5, he6⟩ := A.stall hsome
        exact ⟨he1, he2, by rw [he3], he4, he5, he6⟩
      · dsimp only
        intro h0 e he hate
        rcases List.mem_cons.mp he with rfl | he'
        · exact absurd hate hnat
        · exact A.drained h0 e he' hate
      · dsimp only
        exact A.absent

theorem scan_sorted (buyAgg : Bool) (lt : Int → Int → Bool)
    (htr : ∀ a b c : Int, lt a b = true → lt b c = true → lt a c = true)
    (htot : ∀ a b : Int, a ≠ b → lt a b = true ∨ lt b a = true)
    (aggId : Nat) (p : Int) (es : List (Nat × Order)) (inc : Nat)
    (lad cnts : List (Int × Nat)) (hs : ladSorted lt lad) :
    ladSorted lt (scanContra buyAgg lt aggId p es inc lad cnts).lad := by
  induction es generalizing inc lad cnts with
  | nil => rw [scanContra]; exact hs
  | cons e rest ih =>
    obtain ⟨oid, o⟩ := e
    simp only [scanContra]
    by_cases hcond : o.is_buy = (!buyAgg) ∧ o.order_type = OrderType.LIMIT ∧
        o.price = p ∧ 0 < inc
    · rw [if_pos hcond]
      have hs' : ladSorted lt
          (if u64sub (mapGetD lad p) (min inc o.quantity) = 0 then mapErase lad p
           else ladSet lt lad p (u64sub (mapGetD lad p) (min inc o.quantity))) := by
        split
        · exact ladSorted_mapErase _ _ _ hs
        · exact ladSorted_ladSet lt htr htot _ _ _ hs
      by_cases hbrk : inc - min inc o.quantity = 0
      · rw [if_pos hbrk]
        exact hs'
      · rw [if_neg hbrk]
        exact ih _ _ _ hs'
    · rw [if_neg hcond]
      exact ih _ _ _ hs

theorem scan_trades_nil (buyAgg : Bool) (lt : Int → Int → Bool) (aggId : Nat)
    (p : Int) (es : List (Nat × Order)) (inc : Nat) (lad cnts : List (Int × Nat))
    (h : (scanContra buyAgg lt aggId p es inc lad cnts).trades = []) :
    (scanContra buyAgg lt aggId p es inc lad cnts).entries = es ∧
    (scanContra buyAgg lt aggId p es inc lad cnts).lad = lad ∧
    (scanContra buyAgg lt aggId p es inc lad cnts).cnts = cnts ∧
    (scanContra buyAgg lt aggId p es inc lad cnts).incQty = inc ∧
    (scanContra buyAgg lt aggId p es inc lad cnts).removals = [] := by
  induction es generalizing inc lad cnts with
  | nil => rw [scanContra] at *; exact ⟨rfl, rfl, rfl, rfl, rfl⟩
  | cons e rest ih =>
    obtain ⟨oid, o⟩ := e
    simp only [scanContra] at h ⊢
    by_cases hcond : o.is_buy = (!buyAgg) ∧ o.order_type = OrderType.LIMIT ∧
        o.price = p ∧ 0 < inc
    · rw [if_pos hcond] at h ⊢
      by_cases hbrk : inc - min inc o.quantity = 0
      · rw [if_pos hbrk] at h
        simp at h
      · rw [if_neg hbrk] at h
        simp at h
    · rw [if_neg hcond] at h ⊢
      obtain ⟨h1, h2, h3, h4, h5⟩ := ih _ _ _ h
      exact ⟨by rw [h1], h2, h3, h4, h5⟩

theorem scan_candidate_trade (buyAgg : Bool) (lt : Int → Int → Bool) (aggId : Nat)
    (p : Int) (es : List (Nat × Order)) (inc : Nat) (lad cnts : List (Int × Nat))
    (hinc : 0 < inc) (hc : ∃ e ∈ es, atLevel (!buyAgg) p e.2) :
    (scanContra buyAgg lt aggId p es inc lad cnts).trades ≠ [] := by
  induction es generalizing inc lad cnts with
  | nil => simp at hc
  | cons e rest ih =>
    obtain ⟨oid, o⟩ := e
    simp only [scanContra]
    by_cases hcond : o.is_buy = (!buyAgg) ∧ o.order_type = OrderType.LIMIT ∧
        o.price = p ∧ 0 < inc
    · rw [if_pos hcond]
      by_cases hbrk : inc - min inc o.quantity = 0
      · rw [if_pos hbrk]; simp
      · rw [if_neg hbrk]; simp
    · rw [if_neg hcond]
      obtain ⟨w, hw, hwat⟩ := hc
      rcases List.mem_cons.mp hw with rfl | hw'
      · exact absurd ⟨hwat.1, hwat.2.1, hwat.2.2, hinc⟩ hcond
      · exact ih _ _ _ hinc ⟨w, hw', hwat⟩

/-! ## Transfer lemmas along the scan's registry relation -/

theorem forall₂_mem_right {R : Nat × Order → Nat × Order → Prop}
    {es fs : List (Nat × Order)} (h : List.Forall₂ R es fs) {a : Nat × Order}
    (ha : a ∈ es) : ∃ b ∈ fs, R a b := by
  induction h with
  | nil => simp at ha
  | cons hr hrest ih =>
    rcases List.mem_cons.mp ha with rfl | ha'
    · exact ⟨_, List.mem_cons_self _ _, hr⟩
    · obtain ⟨b, hb, hrb⟩ := ih ha'
      exact ⟨b, List.mem_cons_of_mem _ hb, hrb⟩

theorem forall₂_mem_left {R : Nat × Order → Nat × Order → Prop}
    {es fs : List (Nat × Order)} (h : List.Forall₂ R es fs) {b : Nat × Order}
    (hb : b ∈ fs) : ∃ a ∈ es, R a b := by
  induction h with
  | nil => simp at hb
  | cons hr hrest ih =>
    rcases List.mem_cons.mp hb with rfl | hb'
    · exact ⟨_, List.mem_cons_self _ _, hr⟩
    · obtain ⟨a, ha, hra⟩ := ih hb'
      exact ⟨a, List.mem_cons_of_mem _ ha, hra⟩

theorem forall₂_scanRel_keys {cs : Bool} {p : Int} {es fs : List (Nat × Order)}
    (h : List.Forall₂ (scanRel cs p) es fs) : regKeys fs = regKeys es := by
  induction h with
  | nil => rfl
  | cons hr hrest ih =>
    simp only [regKeys, List.map_cons] at ih ⊢
    rw [ih, hr.1]

theorem forall₂_scanRel_sideQty {cs : Bool} {p : Int} {es fs : List (Nat × Order)}
    (h : List.Forall₂ (scanRel cs p) es fs) (b : Bool) (q : Int)
    (hbq : b ≠ cs ∨ q ≠ p) : sideQty b q fs = sideQty b q es := by
  induction h with
  | nil => rfl
  | cons hr hrest ih =>
    rename_i a c l₁ l₂
    rw [sideQty_cons, sideQty_cons, ih]
    congr 1
    by_cases hat : atLevel cs p a.2
    · have h1 : levelQty b q a.2 = 0 := by
        rw [levelQty]
        by_cases hba : atLevel b q a.2
        · exfalso
          rcases hbq with hb | hq
          · exact hb (hba.1.symm.trans hat.1)
          · exact hq (hba.2.2.symm.trans hat.2.2)
        · rw [if_neg hba]
      have h2 : levelQty b q c.2 = 0 := by
        rw [levelQty]
        by_cases hbc : atLevel b q c.2
        · exfalso
          rcases hbq with hb | hq
          · exact hb (hbc.1.symm.trans (hr.2.1.trans hat.1))
          · exact hq (hbc.2.2.symm.trans (hr.2.2.2.1.trans hat.2.2))
        · rw [if_neg hbc]
      rw [h1, h2]
    · rw [hr.2.2.2.2.2 hat]

theorem forall₂_scanRel_limit {cs : Bool} {p : Int} {es fs : List (Nat × Order)}
    (h : List.Forall₂ (scanRel cs p) es fs)
    (hl : ∀ e ∈ es, e.2.order_type = OrderType.LIMIT) :
    ∀ e ∈ fs, e.2.order_type = OrderType.LIMIT := by
  intro e he
  obtain ⟨a, ha, hr⟩ := forall₂_mem_left h he
  rw [hr.2.2.1]
  exact hl a ha

theorem forall₂_scanRel_qsmall {cs : Bool} {p : Int} {es fs : List (Nat × Order)}
    (h : List.Forall₂ (scanRel cs p) es fs)
    (hl : ∀ e ∈ es, e.2.quantity < U64) : ∀ e ∈ fs, e.2.quantity < U64 := by
  intro e he
  obtain ⟨a, ha, hr⟩ := forall₂_mem_left h he
  exact lt_of_le_of_lt hr.2.2.2.2.1 (hl a ha)

theorem forall₂_scanRel_atLevel {cs : Bool} {p : Int} {es fs : List (Nat × Order)}
    (h : List.Forall₂ (scanRel cs p) es fs) {b : Bool} {q : Int}
    (hw : ∃ e ∈ es, atLevel b q e.2) : ∃ e ∈ fs, atLevel b q e.2 := by
  obtain ⟨a, ha, hat⟩ := hw
  obtain ⟨c, hc, hr⟩ := forall₂_mem_right h ha
  exact ⟨c, hc, hr.2.1.trans hat.1, hr.2.2.1.trans hat.2.1, hr.2.2.2.1.trans hat.2.2⟩

theorem mem_unique_of_nodup {es : List (Nat × Order)} {i : Nat} {a b : Order}
    (hnd : (regKeys es).Nodup) (ha : (i, a) ∈ es) (hb : (i, b) ∈ es) : a = b := by
  induction es with
  | nil => simp at ha
  | cons e rest ih =>
    rw [regKeys, List.map_cons, List.nodup_cons] at hnd
    obtain ⟨hk, hnd'⟩ := hnd
    rcases List.mem_cons.mp ha with rfl | ha' <;>
      rcases List.mem_cons.mp hb with hbe | hb'
    · exact (congrArg Prod.snd hbe).symm
    · exact absurd (List.mem_map.mpr ⟨(i, b), hb', rfl⟩) hk
    · exact absurd (List.mem_map.mpr ⟨(i, a), ha', rfl⟩)
        (by rw [← hbe] at hk; exact hk)
    · exact ih hnd' ha' hb'

theorem sideQty_zero_of_drained {b : Bool} {p : Int} {es : List (Nat × Order)}
    (h : ∀ e ∈ es, atLevel b p e.2 → e.2.quantity = 0) : sideQty b p es = 0 := by
  induction es with
  | nil => rfl
  | cons e rest ih =>
    rw [sideQty_cons]
    have h1 : levelQty b p e.2 = 0 := by
      rw [levelQty]
      by_cases hat : atLevel b p e.2
      · rw [if_pos hat]; exact h e (List.mem_cons_self _ _) hat
      · rw [if_neg hat]
    rw [h1, ih (fun e' he' => h e' (List.mem_cons_of_mem _ he'))]

theorem sideTotal_filter_zeros {b : Bool} {es : List (Nat × Order)}
    {f : Nat × Order → Bool} (h : ∀ e ∈ es, f e = false → e.2.quantity = 0) :
    sideTotal b (es.filter f) = sideTotal b es := by
  induction es with
  | nil => simp
  | cons e rest ih =>
    have hrest : ∀ e ∈ rest, f e = false → e.2.quantity = 0 :=
      fun e' he' hf' => h e' (List.mem_cons_of_mem _ he') hf'
    by_cases hf : f e
    · rw [List.filter_cons_of_pos hf, sideTotal_cons, sideTotal_cons, ih hrest]
    · have hq : e.2.quantity = 0 := h e (List.mem_cons_self _ _) (by simpa using hf)
      rw [List.filter_cons_of_neg (by simpa using hf), sideTotal_cons, ih hrest]
      have : totQty b e.2 = 0 := by
        rw [totQty]; split <;> simp [hq]
      omega

theorem scan_cnts_sorted (buyAgg : Bool) (lt : Int → Int → Bool) (aggId : Nat)
    (p : Int) (es : List (Nat × Order)) (inc : Nat)
    (lad cnts : List (Int × Nat)) (hs : ladSorted askLt cnts) :
    ladSorted askLt (scanContra buyAgg lt aggId p es inc lad cnts).cnts := by
  induction es generalizing inc lad cnts with
  | nil => rw [scanContra]; exact hs
  | cons e rest ih =>
    obtain ⟨oid, o⟩ := e
    simp only [scanContra]
    by_cases hcond : o.is_buy = (!buyAgg) ∧ o.order_type = OrderType.LIMIT ∧
        o.price = p ∧ 0 < inc
    · rw [if_pos hcond]
      have hs' : ladSorted askLt
          (if u64sub (mapGetD lad p) (min inc o.quantity) = 0 then mapErase cnts p
           else cnts) := by
        split
        · exact ladSorted_mapErase _ _ _ hs
        · exact hs
      by_cases hbrk : inc - min inc o.quantity = 0
      · rw [if_pos hbrk]
        exact hs'
      · rw [if_neg hbrk]
        exact ih _ _ _ hs'
    · rw [if_neg hcond]
      exact ih _ _ _ hs

theorem matchAtPrice_spec (buyAgg : Bool) (lt : Int → Int → Bool)
    (htr : ∀ a b c : Int, lt a b = true → lt b c = true → lt a c = true)
    (htot : ∀ a b : Int, a ≠ b → lt a b = true ∨ lt b a = true)
    (o : Order) (p : Int) (orders : List (Nat × Order))
    (lad cnts : List (Int × Nat)) (hV : ViewInv (!buyAgg) lt orders lad cnts)
    (hq : 0 < o.quantity) (hp : (mapFind lad p).isSome) :
    MatchSpec (!buyAgg) lt p o orders lad cnts
      (matchAtPrice buyAgg lt o p orders lad cnts).1
      (matchAtPrice buyAgg lt o p orders lad cnts).2.1
      (matchAtPrice buyAgg lt o p orders lad cnts).2.2.1
      (matchAtPrice buyAgg lt o p orders lad cnts).2.2.2.1
      (matchAtPrice buyAgg lt o p orders lad cnts).2.2.2.2 := by
  have A := scan_specA buyAgg lt o.order_id p orders o.quantity lad cnts hq
    (hV.agg p) (hV.small p) (hV.pair p)
  have B := scan_specB buyAgg lt o.order_id p orders o.quantity lad cnts
  have C := scan_sorted buyAgg lt htr htot o.order_id p orders o.quantity lad cnts
    hV.sorted
  set r := scanContra buyAgg lt o.order_id p orders o.quantity lad cnts with hr
  have horders' : (matchAtPrice buyAgg lt o p orders lad cnts).2.1 =
      r.entries.filter (fun e => decide (e.1 ∉ r.removals)) := by
    show r.removals.foldl (fun es i => regErase es i) r.entries = _
    exact foldl_regErase _ _
  have ho' : (matchAtPrice buyAgg lt o p orders lad cnts).1 =
      { o with quantity := r.incQty } := rfl
  have hlad' : (matchAtPrice buyAgg lt o p orders lad cnts).2.2.1 = r.lad := rfl
  have hcnts' : (matchAtPrice buyAgg lt o p orders lad cnts).2.2.2.1 = r.cnts := rfl
  have htr' : (matchAtPrice buyAgg lt o p orders lad cnts).2.2.2.2 = r.trades := rfl
  rw [horders', ho', hlad', hcnts', htr']
  have hkeys : regKeys r.entries = regKeys orders := forall₂_scanRel_keys B.shape
  have hnd_ent : (regKeys r.entries).Nodup := by rw [hkeys]; exact hV.nodup
  have hdrop : ∀ e ∈ r.entries, (decide (e.1 ∉ r.removals)) = false →
      e.2.quantity = 0 := by
    intro e he hf
    have hmem : e.1 ∈ r.removals := by simpa using hf
    obtain ⟨oo, hoo, hq0, _⟩ := B.rems e.1 hmem
    have : oo = e.2 := mem_unique_of_nodup hnd_ent hoo he
    rw [← this]; exact hq0
  have hsq : ∀ b q, sideQty b q (r.entries.filter (fun e => decide (e.1 ∉ r.removals)))
      = sideQty b q r.entries := fun b q => sideQty_filter_zeros hdrop
  have hsurv : ∀ e ∈ r.entries, (0 < e.2.quantity ∨ ¬ atLevel (!buyAgg) p e.2) →
      e ∈ r.entries.filter (fun e => decide (e.1 ∉ r.removals)) := by
    intro e he hcase
    rw [List.mem_filter]
    refine ⟨he, ?_⟩
    simp only [decide_eq_true_eq]
    intro hmem
    obtain ⟨oo, hoo, hq0, hat⟩ := B.rems e.1 hmem
    have heq : oo = e.2 := mem_unique_of_nodup hnd_ent hoo he
    rcases hcase with hpos | hnat
    · rw [heq] at hq0; omega
    · rw [heq] at hat; exact hnat hat
  have hstall_orders : mapFind r.lad p = some 0 →
      r.entries.filter (fun e => decide (e.1 ∉ r.removals)) = orders := by
    intro hsome
    obtain ⟨_, _, he, _, hrem, _⟩ := A.stall hsome
    rw [hrem]
    simp only [List.not_mem_nil, not_false_eq_true, decide_True, List.filter_true]
    exact he
  have Ccnts : ladSorted askLt r.cnts :=
    scan_cnts_sorted buyAgg lt o.order_id p orders o.quantity lad cnts
      hV.cnts_sorted
  refine ⟨⟨?_, ?_, ?_, ?_, C, Ccnts, ?_, ?_, ?_⟩, ?_, ?_, B.ladF, ?_, ?_, ?_, ?_, ?_, ?_, ?_⟩
  · -- agg
    intro q
    by_cases hqp : q = p
    · subst hqp
      rw [hsq, A.agg]
    · have hfr : mapFind r.lad q = mapFind lad q := B.ladF q hqp
      rw [mapGetD, hfr, ← mapGetD, hV.agg q, hsq,
        forall₂_scanRel_sideQty B.shape _ q (Or.inr hqp)]
  · -- small
    intro q
    rw [hsq]
    by_cases hqp : q = p
    · subst hqp
      have := A.consume
      have := hV.small q
      omega
    · rw [forall₂_scanRel_sideQty B.shape _ q (Or.inr hqp)]
      exact hV.small q
  · -- occ
    intro q hsome
    by_cases hqp : q = p
    · subst hqp
      cases hfind : mapFind r.lad q with
      | none => rw [hfind] at hsome; simp at hsome
      | some v =>
        by_cases hv0 : v = 0
        · subst hv0
          rw [hstall_orders hfind]
          obtain ⟨hl, _, _, _, _, _⟩ := A.stall hfind
          apply hV.occ q
          rw [← hl]
          exact hsome
        · have hgd : mapGetD r.lad q = v := mapFind_getD_eq hfind
          have hpos : 0 < sideQty (!buyAgg) q r.entries := by
            rw [← A.agg, hgd]; omega
          obtain ⟨e, he, hat, hqe⟩ := sideQty_pos_exists hpos
          exact ⟨e, hsurv e he (Or.inl hqe), hat⟩
    · have hfr : mapFind r.lad q = mapFind lad q := B.ladF q hqp
      rw [hfr] at hsome
      obtain ⟨e, he, hat⟩ := hV.occ q hsome
      obtain ⟨e', he', hat'⟩ := forall₂_scanRel_atLevel B.shape ⟨e, he, hat⟩
      refine ⟨e', hsurv e' he' (Or.inr ?_), hat'⟩
      intro hatp
      exact hqp (hat'.2.2.symm.trans hatp.2.2)
  · -- pair
    intro q
    by_cases hqp : q = p
    · subst hqp; exact A.pair
    · rw [B.ladF q hqp, B.cntF q hqp]; exact hV.pair q
  · -- nodup
    rw [regKeys] at hnd_ent ⊢
    exact List.Sublist.nodup (List.Sublist.map _ (List.filter_sublist _)) hnd_ent
  · -- limit
    intro e he
    exact forall₂_scanRel_limit B.shape hV.limit e (List.mem_filter.mp he).1
  · -- qsmall
    intro e he
    exact forall₂_scanRel_qsmall B.shape hV.qsmall e (List.mem_filter.mp he).1
  · -- conserve
    exact B.conserve
  · -- qmono
    exact B.monoB
  · -- keysub
    intro q hsome
    by_cases hqp : q = p
    · subst hqp
      cases hfind : mapFind lad q with
      | none => rw [A.absent hfind] at hsome; simp at hsome
      | some v => simp
    · rw [B.ladF q hqp] at hsome
      exact hsome
  · -- progress
    intro h0
    have hdr := A.drained h0
    have hz : sideQty (!buyAgg) p r.entries = 0 := sideQty_zero_of_drained hdr
    cases hfind : mapFind r.lad p with
    | none => rfl
    | some v =>
      exfalso
      have hgd : mapGetD r.lad p = v := mapFind_getD_eq hfind
      have hv0 : v = 0 := by rw [← hgd, A.agg, hz]
      subst hv0
      obtain ⟨_, _, _, htr0, _, _⟩ := A.stall hfind
      obtain ⟨e, he, hat⟩ := hV.occ p hp
      exact scan_candidate_trade buyAgg lt o.order_id p orders o.quantity lad cnts
        hq ⟨e, he, hat⟩ htr0
  · -- others
    intro b q hb
    rw [hsq, forall₂_scanRel_sideQty B.shape b q (Or.inl hb)]
  · -- othersOcc
    intro b q hb hw
    obtain ⟨e', he', hat'⟩ := forall₂_scanRel_atLevel B.shape hw
    refine ⟨e', hsurv e' he' (Or.inr ?_), hat'⟩
    intro hatp
    exact hb (hat'.1.symm.trans hatp.1)
  · -- fresh
    intro i hnone
    rw [regFind_eq_none_iff] at hnone ⊢
    intro hmem
    apply hnone
    rw [← hkeys]
    have hsub : (r.entries.filter (fun e => decide (e.1 ∉ r.removals))).Sublist
        r.entries := List.filter_sublist _
    exact (hsub.map (fun e => e.1)).subset hmem
  · -- totals
    rw [sideTotal_filter_zeros hdrop]
    exact B.totals
  · -- noop
    intro htr0
    obtain ⟨he, hl, hc, hi, hrem⟩ := scan_trades_nil buyAgg lt o.order_id p orders
      o.quantity lad cnts htr0
    refine ⟨?_, hl, hc, ?_⟩
    · rw [hrem]
      simp only [List.not_mem_nil, not_false_eq_true, decide_True, List.filter_true]
      exact he
    · exact hi

theorem matchLoop_qty_zero (buyAgg : Bool) (lt : Int → Int → Bool)
    (crossOK : Int → Bool) (fuel : Nat) (o : Order)
    (orders : List (Nat × Order)) (lad cnts : List (Int × Nat))
    (tr : List Trade) (h : o.quantity = 0) :
    matchLoop buyAgg lt crossOK fuel o orders lad cnts tr =
      (o, orders, lad, cnts, tr) := by
  cases fuel with
  | zero => rw [matchLoop]
  | succ n =>
    cases lad with
    | nil => rw [matchLoop]
    | cons hd tl =>
      obtain ⟨bp, bv⟩ := hd
      rw [matchLoop, if_neg]
      intro hg
      omega

theorem matchLoop_spec (buyAgg : Bool) (lt : Int → Int → Bool)
    (crossOK : Int → Bool)
    (htr : ∀ a b c : Int, lt a b = true → lt b c = true → lt a c = true)
    (htot : ∀ a b : Int, a ≠ b → lt a b = true ∨ lt b a = true)
    (hirr : ∀ a : Int, lt a a = false)
    (fuel : Nat) (o : Order) (orders : List (Nat × Order))
    (lad cnts : List (Int × Nat)) (tr0 : List Trade)
    (hfuel : lad.length < fuel) (hV : ViewInv (!buyAgg) lt orders lad cnts) :
    LoopSpec (!buyAgg) lt crossOK o orders lad cnts tr0
      (matchLoop buyAgg lt crossOK fuel o orders lad cnts tr0).1
      (matchLoop buyAgg lt crossOK fuel o orders lad cnts tr0).2.1
      (matchLoop buyAgg lt crossOK fuel o orders lad cnts tr0).2.2.1
      (matchLoop buyAgg lt crossOK fuel o orders lad cnts tr0).2.2.2.1
      (matchLoop buyAgg lt crossOK fuel o orders lad cnts tr0).2.2.2.2 := by
  induction fuel generalizing o orders lad cnts tr0 with
  | zero => omega
  | succ n ih =>
    cases lad with
    | nil =>
      rw [matchLoop]
      exact ⟨hV, ⟨rfl, rfl, rfl, rfl⟩, le_refl _,
        ⟨[], by simp, by simp, fun h => ⟨rfl, rfl, rfl, rfl⟩⟩,
        fun q h => h, fun b q h => rfl, fun b q h hw => hw, fun i h => h,
        by simp, fun h => Or.inl rfl⟩
    | cons hd tl =>
      obtain ⟨bp, bv⟩ := hd
      simp only [matchLoop]
      by_cases hg : 0 < o.quantity ∧ crossOK bp
      · rw [if_pos hg]
        have hp : (mapFind ((bp, bv) :: tl) bp).isSome := by
          rw [mapFind, if_pos rfl]; rfl
        have M := matchAtPrice_spec buyAgg lt htr htot o bp orders
          ((bp, bv) :: tl) cnts hV hg.1 hp
        set s := matchAtPrice buyAgg lt o bp orders ((bp, bv) :: tl) cnts with hs
        have hstatic : s.1.order_id = o.order_id ∧ s.1.is_buy = o.is_buy ∧
            s.1.order_type = o.order_type ∧ s.1.price = o.price :=
          ⟨rfl, rfl, rfl, rfl⟩
        by_cases h0 : 0 < s.1.quantity
        · -- the level at bp was removed: the ladder strictly shrinks
          have hfuel' : s.2.2.1.length < n := by
            have hnone := M.progress h0
            have hnd' : (mapKeys s.2.2.1).Nodup :=
              ladSorted_nodup_keys lt hirr _ M.inv.sorted
            have hlt := length_lt_of_keys_lt ((bp, bv) :: tl) s.2.2.1 bp hnd'
              M.keysub hp hnone
            have hfuel2 : tl.length + 1 < n + 1 := by simpa using hfuel
            simp only [List.length_cons] at hlt
            omega
          have IH := ih s.1 s.2.1 s.2.2.1 s.2.2.2.1 (tr0 ++ s.2.2.2.2) hfuel' M.inv
          refine ⟨IH.inv,
            ⟨IH.static.1.trans hstatic.1, IH.static.2.1.trans hstatic.2.1,
              IH.static.2.2.1.trans hstatic.2.2.1,
              IH.static.2.2.2.trans hstatic.2.2.2⟩,
            le_trans IH.qmono M.qmono, ?_,
            fun q h => M.keysub q (IH.keysub q h),
            fun b q hb => (IH.others b q hb).trans (M.others b q hb),
            fun b q hb hw => IH.othersOcc b q hb (M.othersOcc b q hb hw),
            fun i h => IH.fresh i (M.fresh i h), ?_, IH.post⟩
          · obtain ⟨trN', h1, h2, h3⟩ := IH.trades
            refine ⟨s.2.2.2.2 ++ trN', by rw [h1, List.append_assoc], ?_, ?_⟩
            · rw [List.map_append, List.sum_append]
              have := M.conserve
              omega
            · intro hnil
              obtain ⟨hn1, hn2⟩ := List.append_eq_nil.mp hnil
              obtain ⟨hm1, hm2, hm3, hm4⟩ := M.noop hn1
              obtain ⟨hh1, hh2, hh3, hh4⟩ := h3 hn2
              exact ⟨hh1.trans hm1, hh2.trans hm2, hh3.trans hm3,
                hh4.trans hm4⟩
          · have ht1 := M.totals
            have ht2 := IH.totals
            have := IH.qmono
            have := M.qmono
            omega
        · -- the aggressor is exhausted: the next iteration exits immediately
          have hq0 : s.1.quantity = 0 := by omega
          rw [matchLoop_qty_zero buyAgg lt crossOK n s.1 s.2.1 s.2.2.1 s.2.2.2.1
            (tr0 ++ s.2.2.2.2) hq0]
          refine ⟨M.inv, hstatic, M.qmono,
            ⟨s.2.2.2.2, rfl, M.conserve, fun hnil => M.noop hnil⟩,
            M.keysub, M.others, M.othersOcc, M.fresh, M.totals, ?_⟩
          intro hpos
          dsimp only at hpos
          exact absurd hpos (by omega)
      · rw [if_neg hg]
        refine ⟨hV, ⟨rfl, rfl, rfl, rfl⟩, le_refl _,
          ⟨[], by simp, by simp, fun h => ⟨rfl, rfl, rfl, rfl⟩⟩,
          fun q h => h, fun b q h => rfl, fun b q h hw => hw, fun i h => h,
          by simp, ?_⟩
        intro h0
        right
        refine ⟨bp, bv, tl, rfl, ?_⟩
        by_cases hc : crossOK bp
        · exact absurd ⟨h0, hc⟩ hg
        · simpa using hc

theorem bidLt_trans : ∀ a b c : Int, bidLt a b = true → bidLt b c = true →
    bidLt a c = true := by
  intro a b c h1 h2
  simp only [bidLt, decide_eq_true_eq] at *
  omega

theorem bidLt_total : ∀ a b : Int, a ≠ b → bidLt a b = true ∨ bidLt b a = true := by
  intro a b h
  simp only [bidLt, decide_eq_true_eq]
  omega

theorem bidLt_irrefl : ∀ a : Int, bidLt a a = false := by
  intro a
  simp [bidLt]

theorem askLt_trans : ∀ a b c : Int, askLt a b = true → askLt b c = true →
    askLt a c = true := by
  intro a b c h1 h2
  simp only [askLt, decide_eq_true_eq] at *
  omega

theorem askLt_total : ∀ a b : Int, a ≠ b → askLt a b = true ∨ askLt b a = true := by
  intro a b h
  simp only [askLt, decide_eq_true_eq]
  omega

theorem askLt_irrefl : ∀ a : Int, askLt a a = false := by
  intro a
  simp [askLt]

theorem inv_emptyBook : BookInv emptyBook := by
  constructor <;>
    exact ⟨fun p => rfl, fun p => U64_pos,
      fun p h => by simp [emptyBook, mapFind] at h,
      fun p => Iff.rfl, List.Pairwise.nil, List.Pairwise.nil, List.nodup_nil,
      fun e he => by simp [emptyBook] at he,
      fun e he => by simp [emptyBook] at he⟩

/-! ## Registry update membership lemmas -/

theorem regSet_mem {es : List (Nat × Order)} {i : Nat} {o' : Order}
    {e : Nat × Order} (h : e ∈ regSet es i o') :
    e = (i, o') ∨ (e ∈ es ∧ e.1 ≠ i) := by
  rw [regSet] at h
  obtain ⟨a, ha, hae⟩ := List.mem_map.mp h
  by_cases hai : a.1 = i
  · rw [if_pos hai] at hae
    exact Or.inl hae.symm
  · rw [if_neg hai] at hae
    exact Or.inr ⟨hae ▸ ha, hae ▸ hai⟩

theorem regSet_mem_self {es : List (Nat × Order)} {i : Nat} {o : Order}
    (o' : Order) (h : (i, o) ∈ es) : (i, o') ∈ regSet es i o' := by
  rw [regSet]
  refine List.mem_map.mpr ⟨(i, o), h, ?_⟩
  rw [if_pos rfl]

theorem regSet_mem_of_ne {es : List (Nat × Order)} {i : Nat} {o' : Order}
    {e : Nat × Order} (h : e ∈ es) (hne : e.1 ≠ i) : e ∈ regSet es i o' := by
  rw [regSet]
  refine List.mem_map.mpr ⟨e, h, ?_⟩
  rw [if_neg hne]

theorem regErase_mem_of_ne {es : List (Nat × Order)} {i : Nat}
    {e : Nat × Order} (h : e ∈ es) (hne : e.1 ≠ i) : e ∈ regErase es i := by
  rw [regErase, List.mem_filter]
  exact ⟨h, by simpa using hne⟩

theorem regErase_mem {es : List (Nat × Order)} {i : Nat} {e : Nat × Order}
    (h : e ∈ regErase es i) : e ∈ es ∧ e.1 ≠ i := by
  rw [regErase, List.mem_filter] at h
  exact ⟨h.1, by simpa using h.2⟩

/-- Transfer a side's view along a registry change that does not affect that
side's sums or occupancy. -/
theorem ViewInv_transfer {b : Bool} {lt : Int → Int → Bool}
    {orders orders' : List (Nat × Order)} {lad cnts : List (Int × Nat)}
    (hV : ViewInv b lt orders lad cnts)
    (hsq : ∀ q, sideQty b q orders' = sideQty b q orders)
    (hocc : ∀ q, (∃ e ∈ orders, atLevel b q e.2) → ∃ e ∈ orders', atLevel b q e.2)
    (hnd : (regKeys orders').Nodup)
    (hlim : ∀ e ∈ orders', e.2.order_type = OrderType.LIMIT)
    (hqs : ∀ e ∈ orders', e.2.quantity < U64) :
    ViewInv b lt orders' lad cnts :=
  ⟨fun p => (hV.agg p).trans (hsq p).symm,
   fun p => (hsq p) ▸ hV.small p,
   fun p h => hocc p (hV.occ p h),
   hV.pair, hV.sorted, hV.cnts_sorted, hnd, hlim, hqs⟩

theorem regErase_occ {orders : List (Nat × Order)} {i : Nat} {o : Order}
    (hnd : (regKeys orders).Nodup) (hfind : regFind orders i = some o)
    {b : Bool} {q : Int} (hw : ∃ e ∈ orders, atLevel b q e.2)
    (hdiff : ¬ atLevel b q o) : ∃ e ∈ regErase orders i, atLevel b q e.2 := by
  obtain ⟨⟨i', x⟩, hmem, hat⟩ := hw
  by_cases hii : i' = i
  · subst hii
    have : x = o := mem_unique_of_nodup hnd hmem (regFind_eq_some_mem hfind)
    rw [this] at hat
    exact absurd hat hdiff
  · exact ⟨(i', x), regErase_mem_of_ne hmem hii, hat⟩

theorem regErase_nodup {orders : List (Nat × Order)} (i : Nat)
    (hnd : (regKeys orders).Nodup) : (regKeys (regErase orders i)).Nodup := by
  rw [regKeys] at hnd ⊢
  exact List.Sublist.nodup (List.Sublist.map _ (List.filter_sublist _)) hnd

/-- Ladder half of cancellation preserves the cancelled side's view, combined
with the registry erase. -/
theorem ViewInv_cancel_own {b : Bool} {lt : Int → Int → Bool}
    (htr : ∀ a b c : Int, lt a b = true → lt b c = true → lt a c = true)
    (htot : ∀ a b : Int, a ≠ b → lt a b = true ∨ lt b a = true)
    {orders : List (Nat × Order)} {lad cnts : List (Int × Nat)}
    (hV : ViewInv b lt orders lad cnts) {i : Nat} {o : Order}
    (hfind : regFind orders i = some o) (hb : o.is_buy = b) :
    ViewInv b lt (regErase orders i)
      (ladderRemove lt lad cnts o.price o.quantity).1
      (ladderRemove lt lad cnts o.price o.quantity).2 := by
  have hmem : (i, o) ∈ orders := regFind_eq_some_mem hfind
  have hLIM : o.order_type = OrderType.LIMIT := hV.limit (i, o) hmem
  have hat : atLevel b o.price o := ⟨hb, hLIM, rfl⟩
  have hlq : levelQty b o.price o = o.quantity := by simp [levelQty, hat]
  have hsum : ∀ q, sideQty b q (regErase orders i) + levelQty b q o =
      sideQty b q orders := fun q => sideQty_regErase hV.nodup hfind
  have hsum_ne : ∀ q, q ≠ o.price →
      sideQty b q (regErase orders i) = sideQty b q orders := by
    intro q hq
    have h0 : levelQty b q o = 0 := by
      rw [levelQty, if_neg]
      intro hat'
      exact hq hat'.2.2.symm
    have := hsum q
    omega
  have hocc_ne : ∀ q, q ≠ o.price → (∃ e ∈ orders, atLevel b q e.2) →
      ∃ e ∈ regErase orders i, atLevel b q e.2 := by
    intro q hq hw
    refine regErase_occ hV.nodup hfind hw ?_
    intro hat'
    exact hq hat'.2.2.symm
  have hnd' := regErase_nodup i hV.nodup
  have hlim' : ∀ e ∈ regErase orders i, e.2.order_type = OrderType.LIMIT :=
    fun e he => hV.limit e (regErase_mem he).1
  have hqs' : ∀ e ∈ regErase orders i, e.2.quantity < U64 :=
    fun e he => hV.qsmall e (regErase_mem he).1
  have hqle : o.quantity ≤ sideQty b o.price orders := by
    have h1 : levelQty b o.price o ≤ sideQty b o.price orders :=
      levelQty_le_sideQty hmem
    omega
  rw [ladderRemove]
  cases hfindl : mapFind lad o.price with
  | none =>
    dsimp only
    have h0 : sideQty b o.price orders = 0 := by
      rw [← hV.agg o.price, mapGetD, hfindl]
      rfl
    have hq0 : o.quantity = 0 := by omega
    refine ⟨?_, ?_, ?_, hV.pair, hV.sorted, hV.cnts_sorted, hnd', hlim', hqs'⟩
    · intro q
      by_cases hq : q = o.price
      · subst hq
        rw [hV.agg o.price]
        have := hsum o.price
        omega
      · rw [hV.agg q, hsum_ne q hq]
    · intro q
      have := hsum q
      have := hV.small q
      omega
    · intro q hs
      by_cases hq : q = o.price
      · subst hq
        rw [hfindl] at hs
        simp at hs
      · exact hocc_ne q hq (hV.occ q hs)
  | some v =>
    dsimp only
    have hvs : v = sideQty b o.price orders := by
      rw [← hV.agg o.price]
      exact (mapFind_getD_eq hfindl).symm
    by_cases hle : v ≤ o.quantity
    · rw [if_pos hle]
      have hveq : v = o.quantity := by omega
      refine ⟨?_, ?_, ?_, ?_, ladSorted_mapErase _ _ _ hV.sorted,
        ladSorted_mapErase _ _ _ hV.cnts_sorted, hnd', hlim', hqs'⟩
      · intro q
        by_cases hq : q = o.price
        · subst hq
          rw [mapGetD_mapErase_self]
          have := hsum o.price
          omega
        · rw [mapGetD_mapErase_ne _ _ _ hq, hV.agg q, hsum_ne q hq]
      · intro q
        have := hsum q
        have := hV.small q
        omega
      · intro q hs
        by_cases hq : q = o.price
        · subst hq
          rw [mapFind_mapErase_self] at hs
          simp at hs
        · rw [mapFind_mapErase_ne _ _ _ hq] at hs
          exact hocc_ne q hq (hV.occ q hs)
      · intro q
        by_cases hq : q = o.price
        · subst hq
          rw [mapFind_mapErase_self, mapFind_mapErase_self]
        · rw [mapFind_mapErase_ne _ _ _ hq, mapFind_mapErase_ne _ _ _ hq]
          exact hV.pair q
    · rw [if_neg hle]
      have hagg' : ∀ q, mapGetD (ladSet lt lad o.price (v - o.quantity)) q =
          sideQty b q (regErase orders i) := by
        intro q
        by_cases hq : q = o.price
        · subst hq
          rw [mapGetD_ladSet_self]
          have := hsum o.price
          omega
        · rw [mapGetD_ladSet_ne _ _ _ _ _ hq, hV.agg q, hsum_ne q hq]
      refine ⟨hagg', ?_, ?_, ?_,
        ladSorted_ladSet lt htr htot _ _ _ hV.sorted,
        ladSorted_ladSet askLt askLt_trans askLt_total _ _ _ hV.cnts_sorted,
        hnd', hlim', hqs'⟩
      · intro q
        have := hsum q
        have := hV.small q
        omega
      · intro q hs
        by_cases hq : q = o.price
        · subst hq
          have hpos : 0 < sideQty b o.price (regErase orders i) := by
            have := hagg' o.price
            rw [mapGetD_ladSet_self] at this
            omega
          obtain ⟨e, he, hate, _⟩ := sideQty_pos_exists hpos
          exact ⟨e, he, hate⟩
        · rw [mapFind_ladSet_ne _ _ _ _ _ hq] at hs
          exact hocc_ne q hq (hV.occ q hs)
      · intro q
        by_cases hq : q = o.price
        · subst hq
          rw [mapFind_ladSet_self, mapFind_ladSet_self]
          simp
        · rw [mapFind_ladSet_ne _ _ _ _ _ hq, mapFind_ladSet_ne _ _ _ _ _ hq]
          exact hV.pair q

/-- The registry erase of cancellation preserves the other side's view. -/
theorem ViewInv_cancel_other {b : Bool} {lt : Int → Int → Bool}
    {orders : List (Nat × Order)} {lad cnts : List (Int × Nat)}
    (hV : ViewInv b lt orders lad cnts) {i : Nat} {o : Order}
    (hfind : regFind orders i = some o) (hb : o.is_buy ≠ b) :
    ViewInv b lt (regErase orders i) lad cnts := by
  refine ViewInv_transfer hV ?_ ?_ (regErase_nodup i hV.nodup)
    (fun e he => hV.limit e (regErase_mem he).1)
    (fun e he => hV.qsmall e (regErase_mem he).1)
  · intro q
    have hsum := sideQty_regErase (b := b) (p := q) hV.nodup hfind
    have h0 : levelQty b q o = 0 := by
      rw [levelQty, if_neg]
      intro hat'
      exact hb hat'.1
    omega
  · intro q hw
    refine regErase_occ hV.nodup hfind hw ?_
    intro hat'
    exact hb hat'.1

theorem cancel_order_inv (d : OrderBookData) (i : Nat) (hI : BookInv d) :
    BookInv (cancel_order d i).1 := by
  rw [cancel_order]
  cases hfind : regFind d.orders i with
  | none => exact hI
  | some o =>
    dsimp only
    have hmem := regFind_eq_some_mem hfind
    have hLIM : o.order_type = OrderType.LIMIT := hI.bidV.limit (i, o) hmem
    rw [if_pos hLIM]
    by_cases hb : o.is_buy
    · rw [if_pos hb]
      exact ⟨ViewInv_cancel_own bidLt_trans bidLt_total hI.bidV hfind hb,
        ViewInv_cancel_other hI.askV hfind (by simp [hb])⟩
    · rw [if_neg hb]
      exact ⟨ViewInv_cancel_other hI.bidV hfind (by simpa using hb),
        ViewInv_cancel_own askLt_trans askLt_total hI.askV hfind
          (by simpa using hb)⟩

/-- Installing one new resting contribution `o'` at price `np` on side `b`:
the generic ladder/count/registry update shared by the resting half of
`add_order` and the re-add half of `amend_order`. -/
theorem ViewInv_insert {b : Bool} {lt : Int → Int → Bool}
    (htr : ∀ a b c : Int, lt a b = true → lt b c = true → lt a c = true)
    (htot : ∀ a b : Int, a ≠ b → lt a b = true ∨ lt b a = true)
    {orders0 orders1 : List (Nat × Order)} {lad0 cnts0 : List (Int × Nat)}
    (hV : ViewInv b lt orders0 lad0 cnts0) {o' : Order} {np : Int}
    (ho'b : o'.is_buy = b) (ho'L : o'.order_type = OrderType.LIMIT)
    (ho'p : o'.price = np)
    (hsum1 : ∀ q, sideQty b q orders1 = sideQty b q orders0 + levelQty b q o')
    (hoccw : ∃ e ∈ orders1, atLevel b np e.2)
    (hocc0 : ∀ q, (∃ e ∈ orders0, atLevel b q e.2) →
      ∃ e ∈ orders1, atLevel b q e.2)
    (hnd1 : (regKeys orders1).Nodup)
    (hlim1 : ∀ e ∈ orders1, e.2.order_type = OrderType.LIMIT)
    (hqs1 : ∀ e ∈ orders1, e.2.quantity < U64)
    (hof : sideQty b np orders0 + o'.quantity < U64) :
    ViewInv b lt orders1
      (ladSet lt lad0 np (u64add (mapGetD lad0 np) o'.quantity))
      (ladSet askLt cnts0 np (u64add (mapGetD cnts0 np) 1)) := by
  have hato' : atLevel b np o' := ⟨ho'b, ho'L, ho'p⟩
  have hlq : levelQty b np o' = o'.quantity := by simp [levelQty, hato']
  refine ⟨?_, ?_, ?_, ?_, ladSorted_ladSet lt htr htot _ _ _ hV.sorted,
    ladSorted_ladSet askLt askLt_trans askLt_total _ _ _ hV.cnts_sorted,
    hnd1, hlim1, hqs1⟩
  · intro q
    by_cases hq : q = np
    · subst hq
      rw [mapGetD_ladSet_self]
      have hex : u64add (mapGetD lad0 q) o'.quantity =
          mapGetD lad0 q + o'.quantity := by
        apply u64add_exact
        rw [hV.agg q]
        omega
      rw [hex, hV.agg q, hsum1 q, hlq]
    · rw [mapGetD_ladSet_ne _ _ _ _ _ hq, hV.agg q, hsum1 q]
      have h0 : levelQty b q o' = 0 := by
        rw [levelQty, if_neg]
        intro hat'
        exact hq (hat'.2.2.symm.trans ho'p)
      omega
  · intro q
    rw [hsum1 q]
    by_cases hq : q = np
    · subst hq
      have := hV.agg q
      rw [hlq]
      omega
    · have h0 : levelQty b q o' = 0 := by
        rw [levelQty, if_neg]
        intro hat'
        exact hq (hat'.2.2.symm.trans ho'p)
      have := hV.small q
      omega
  · intro q hs
    by_cases hq : q = np
    · subst hq
      exact hoccw
    · rw [mapFind_ladSet_ne _ _ _ _ _ hq] at hs
      exact hocc0 q (hV.occ q hs)
  · intro q
    by_cases hq : q = np
    · subst hq
      rw [mapFind_ladSet_self, mapFind_ladSet_self]
      simp
    · rw [mapFind_ladSet_ne _ _ _ _ _ hq, mapFind_ladSet_ne _ _ _ _ _ hq]
      exact hV.pair q

theorem regSet_occ {orders : List (Nat × Order)} {i : Nat} {o : Order}
    (o' : Order) (hnd : (regKeys orders).Nodup) (hfind : regFind orders i = some o)
    {b : Bool} {q : Int} (hw : ∃ e ∈ orders, atLevel b q e.2)
    (hdiff : ¬ atLevel b q o) : ∃ e ∈ regSet orders i o', atLevel b q e.2 := by
  obtain ⟨⟨i', x⟩, hmem, hat⟩ := hw
  by_cases hii : i' = i
  · subst hii
    have : x = o := mem_unique_of_nodup hnd hmem (regFind_eq_some_mem hfind)
    rw [this] at hat
    exact absurd hat hdiff
  · exact ⟨(i', x), regSet_mem_of_ne hmem hii, hat⟩

theorem amend_order_inv (d : OrderBookData) (i : Nat) (np : Int) (nq : Nat)
    (hI : BookInv d) (hnq : nq < U64)
    (hofb : sideQty true np d.orders + nq < U64)
    (hofa : sideQty false np d.orders + nq < U64) :
    BookInv (amend_order d i np nq).1 := by
  rw [amend_order]
  cases hfind : regFind d.orders i with
  | none => exact hI
  | some o =>
    dsimp only
    have hmem := regFind_eq_some_mem hfind
    have hLIM : o.order_type = OrderType.LIMIT := hI.bidV.limit (i, o) hmem
    rw [if_pos hLIM]
    set o' : Order := { o with price := np, quantity := nq } with ho'def
    have ho'p : o'.price = np := rfl
    have ho'q : o'.quantity = nq := rfl
    have ho'L : o'.order_type = OrderType.LIMIT := hLIM
    have hnd1 : (regKeys (regSet d.orders i o')).Nodup := by
      rw [regKeys_regSet]
      exact hI.bidV.nodup
    have hlim1 : ∀ e ∈ regSet d.orders i o', e.2.order_type = OrderType.LIMIT := by
      intro e he
      rcases regSet_mem he with rfl | ⟨he', _⟩
      · exact ho'L
      · exact hI.bidV.limit e he'
    have hqs1 : ∀ e ∈ regSet d.orders i o', e.2.quantity < U64 := by
      intro e he
      rcases regSet_mem he with rfl | ⟨he', _⟩
      · exact hnq
      · exact hI.bidV.qsmall e he'
    have hsum1 : ∀ b q, sideQty b q (regSet d.orders i o') =
        sideQty b q (regErase d.orders i) + levelQty b q o' := by
      intro b q
      have h1 := sideQty_regSet (b := b) (p := q) o' hI.bidV.nodup hfind
      have h2 := sideQty_regErase (b := b) (p := q) hI.bidV.nodup hfind
      omega
    have hocc0 : ∀ (b : Bool) q, (∃ e ∈ regErase d.orders i, atLevel b q e.2) →
        ∃ e ∈ regSet d.orders i o', atLevel b q e.2 := by
      intro b q ⟨e, he, hat⟩
      exact ⟨e, regSet_mem_of_ne (regErase_mem he).1 (regErase_mem he).2, hat⟩
    have herase_le : ∀ (b : Bool) q, sideQty b q (regErase d.orders i) ≤
        sideQty b q d.orders := by
      intro b q
      have := sideQty_regErase (b := b) (p := q) hI.bidV.nodup hfind
      omega
    by_cases hb : o.is_buy
    · rw [if_pos hb, if_pos hb]
      dsimp only
      have ho'b : o'.is_buy = true := hb
      refine ⟨?_, ?_⟩
      · refine ViewInv_insert bidLt_trans bidLt_total
          (ViewInv_cancel_own bidLt_trans bidLt_total hI.bidV hfind hb)
          ho'b ho'L ho'p (fun q => hsum1 true q)
          ⟨(i, o'), regSet_mem_self o' hmem, ho'b, ho'L, ho'p⟩
          (hocc0 true) hnd1 hlim1 hqs1 ?_
        rw [ho'q]
        have := herase_le true np
        omega
      · dsimp only
        refine ViewInv_transfer hI.askV ?_ ?_ hnd1 hlim1 hqs1
        · intro q
          have h1 := hsum1 false q
          have h2 := sideQty_regErase (b := false) (p := q) hI.bidV.nodup hfind
          have h3 : levelQty false q o = 0 := by
            rw [levelQty, if_neg]
            intro hat'
            rw [hat'.1] at hb
            exact Bool.noConfusion hb
          have h4 : levelQty false q o' = 0 := by
            rw [levelQty, if_neg]
            intro hat'
            have : o'.is_buy = false := hat'.1
            rw [ho'b] at this
            exact Bool.noConfusion this
          omega
        · intro q hw
          refine regSet_occ o' hI.askV.nodup hfind hw ?_
          intro hat'
          rw [hat'.1] at hb
          exact Bool.noConfusion hb
    · rw [if_neg hb, if_neg hb]
      dsimp only
      have hbf : o.is_buy = false := by simpa using hb
      have ho'b : o'.is_buy = false := hbf
      refine ⟨?_, ?_⟩
      · dsimp only
        refine ViewInv_transfer hI.bidV ?_ ?_ hnd1 hlim1 hqs1
        · intro q
          have h1 := hsum1 true q
          have h2 := sideQty_regErase (b := true) (p := q) hI.bidV.nodup hfind
          have h3 : levelQty true q o = 0 := by
            rw [levelQty, if_neg]
            intro hat'
            rw [hat'.1] at hbf
            exact Bool.noConfusion hbf
          have h4 : levelQty true q o' = 0 := by
            rw [levelQty, if_neg]
            intro hat'
            have : o'.is_buy = true := hat'.1
            rw [ho'b] at this
            exact Bool.noConfusion this
          omega
        · intro q hw
          refine regSet_occ o' hI.bidV.nodup hfind hw ?_
          intro hat'
          rw [hat'.1] at hbf
          exact Bool.noConfusion hbf
      · refine ViewInv_insert askLt_trans askLt_total
          (ViewInv_cancel_own askLt_trans askLt_total hI.askV hfind hbf)
          ho'b ho'L ho'p (fun q => hsum1 false q)
          ⟨(i, o'), regSet_mem_self o' hmem, ho'b, ho'L, ho'p⟩
          (hocc0 false) hnd1 hlim1 hqs1 ?_
        rw [ho'q]
        have := herase_le false np
        omega

theorem sideQty_append_single (b : Bool) (q : Int) (i : Nat) (o' : Order)
    (es : List (Nat × Order)) :
    sideQty b q (es ++ [(i, o')]) = sideQty b q es + levelQty b q o' := by
  rw [sideQty_append, sideQty_cons, sideQty_nil]
  rfl

theorem regKeys_append_nodup {es : List (Nat × Order)} {i : Nat} (o' : Order)
    (hnd : (regKeys es).Nodup) (hi : i ∉ regKeys es) :
    (regKeys (es ++ [(i, o')])).Nodup := by
  rw [regKeys, List.map_append] at *
  refine List.Nodup.append hnd (List.nodup_singleton i) ?_
  intro a ha hb
  simp only [List.map_cons, List.map_nil, List.mem_singleton] at hb
  subst hb
  exact hi ha

theorem add_order_inv (d : OrderBookData) (o : Order) (hI : BookInv d)
    (hqU : o.quantity < U64)
    (hofb : sideQty true o.price d.orders + o.quantity < U64)
    (hofa : sideQty false o.price d.orders + o.quantity < U64) :
    BookInv (add_order d o).1 := by
  rw [add_order, add_order_full]
  by_cases hdup : (regFind d.orders o.order_id).isSome
  · rw [if_pos hdup]
    exact hI
  · rw [if_neg hdup]
    have hfresh : regFind d.orders o.order_id = none := by
      cases h : regFind d.orders o.order_id with
      | none => rfl
      | some x => rw [h] at hdup; simp at hdup
    by_cases hmkt : o.order_type = OrderType.MARKET
    · rw [if_pos hmkt]
      by_cases hb : o.is_buy
      · rw [if_pos hb]
        have LS := matchLoop_spec true askLt (fun _ => true) askLt_trans
          askLt_total askLt_irrefl (d.asks.length + 1) o d.orders d.asks
          d.ask_order_counts [] (by omega) hI.askV
        dsimp only
        exact ⟨ViewInv_transfer hI.bidV (fun q => LS.others true q (by simp))
            (fun q => LS.othersOcc true q (by simp)) LS.inv.nodup LS.inv.limit
            LS.inv.qsmall, LS.inv⟩
      · rw [if_neg hb]
        have LS := matchLoop_spec false bidLt (fun _ => true) bidLt_trans
          bidLt_total bidLt_irrefl (d.bids.length + 1) o d.orders d.bids
          d.bid_order_counts [] (by omega) hI.bidV
        dsimp only
        exact ⟨LS.inv, ViewInv_transfer hI.askV
            (fun q => LS.others false q (by simp))
            (fun q => LS.othersOcc false q (by simp)) LS.inv.nodup LS.inv.limit
            LS.inv.qsmall⟩
    · rw [if_neg hmkt]
      have hLIMv : o.order_type = OrderType.LIMIT := by
        cases h : o.order_type with
        | LIMIT => rfl
        | MARKET => exact absurd h hmkt
      by_cases hb : o.is_buy
      · rw [if_pos hb]
        have LS := matchLoop_spec true askLt (fun bp => decide (bp ≤ o.price))
          askLt_trans askLt_total askLt_irrefl (d.asks.length + 1) o d.orders
          d.asks d.ask_order_counts [] (by omega) hI.askV
        set s := matchLoop true askLt (fun bp => decide (bp ≤ o.price))
          (d.asks.length + 1) o d.orders d.asks d.ask_order_counts [] with hsdef
        have hstatic := LS.static
        have hbase : ViewInv true bidLt s.2.1 d.bids d.bid_order_counts :=
          ViewInv_transfer hI.bidV (fun q => LS.others true q (by simp))
            (fun q => LS.othersOcc true q (by simp)) LS.inv.nodup LS.inv.limit
            LS.inv.qsmall
        have hfresh' : regFind s.2.1 o.order_id = none :=
          LS.fresh o.order_id hfresh
        have hid : s.1.order_id = o.order_id := hstatic.1
        have hnotin : s.1.order_id ∉ regKeys s.2.1 := by
          rw [hid]
          exact (regFind_eq_none_iff _ _).mp hfresh'
        have hnd1 : (regKeys (s.2.1 ++ [(s.1.order_id, s.1)])).Nodup :=
          regKeys_append_nodup s.1 LS.inv.nodup hnotin
        have hlim1 : ∀ e ∈ s.2.1 ++ [(s.1.order_id, s.1)],
            e.2.order_type = OrderType.LIMIT := by
          intro e he
          rcases List.mem_append.mp he with h1 | h2
          · exact LS.inv.limit e h1
          · rw [List.mem_singleton] at h2
            rw [h2]
            exact hstatic.2.2.1.trans hLIMv
        have hqs1 : ∀ e ∈ s.2.1 ++ [(s.1.order_id, s.1)], e.2.quantity < U64 := by
          intro e he
          rcases List.mem_append.mp he with h1 | h2
          · exact LS.inv.qsmall e h1
          · rw [List.mem_singleton] at h2
            rw [h2]
            exact lt_of_le_of_lt LS.qmono hqU
        by_cases hrest : 0 < s.1.quantity
        · rw [if_pos hrest]
          refine ⟨?_, ?_⟩
          · dsimp only
            refine ViewInv_insert bidLt_trans bidLt_total hbase
              (hstatic.2.1.trans hb) (hstatic.2.2.1.trans hLIMv) rfl
              (fun q => sideQty_append_single true q _ s.1 s.2.1)
              ⟨(s.1.order_id, s.1), List.mem_append_right _ (List.mem_singleton.mpr rfl),
                hstatic.2.1.trans hb, hstatic.2.2.1.trans hLIMv, rfl⟩
              (fun q ⟨e, he, hat⟩ => ⟨e, List.mem_append_left _ he, hat⟩)
              hnd1 hlim1 hqs1 ?_
            rw [LS.others true s.1.price (by simp), hstatic.2.2.2]
            have := LS.qmono
            omega
          · dsimp only
            refine ViewInv_transfer LS.inv ?_ ?_ hnd1 hlim1 hqs1
            · intro q
              rw [sideQty_append_single]
              have h0 : levelQty false q s.1 = 0 := by
                rw [levelQty, if_neg]
                intro hat'
                have := hat'.1
                rw [hstatic.2.1, hb] at this
                exact Bool.noConfusion this
              omega
            · intro q ⟨e, he, hat⟩
              exact ⟨e, List.mem_append_left _ he, hat⟩
        · rw [if_neg hrest]
          exact ⟨hbase, LS.inv⟩
      · rw [if_neg hb]
        have hbf : o.is_buy = false := by simpa using hb
        have LS := matchLoop_spec false bidLt (fun bp => decide (o.price ≤ bp))
          bidLt_trans bidLt_total bidLt_irrefl (d.bids.length + 1) o d.orders
          d.bids d.bid_order_counts [] (by omega) hI.bidV
        set s := matchLoop false bidLt (fun bp => decide (o.price ≤ bp))
          (d.bids.length + 1) o d.orders d.bids d.bid_order_counts [] with hsdef
        have hstatic := LS.static
        have hbase : ViewInv false askLt s.2.1 d.asks d.ask_order_counts :=
          ViewInv_transfer hI.askV (fun q => LS.others false q (by simp))
            (fun q => LS.othersOcc false q (by simp)) LS.inv.nodup LS.inv.limit
            LS.inv.qsmall
        have hfresh' : regFind s.2.1 o.order_id = none :=
          LS.fresh o.order_id hfresh
        have hid : s.1.order_id = o.order_id := hstatic.1
        have hnotin : s.1.order_id ∉ regKeys s.2.1 := by
          rw [hid]
          exact (regFind_eq_none_iff _ _).mp hfresh'
        have hnd1 : (regKeys (s.2.1 ++ [(s.1.order_id, s.1)])).Nodup :=
          regKeys_append_nodup s.1 LS.inv.nodup hnotin
        have hlim1 : ∀ e ∈ s.2.1 ++ [(s.1.order_id, s.1)],
            e.2.order_type = OrderType.LIMIT := by
          intro e he
          rcases List.mem_append.mp he with h1 | h2
          · exact LS.inv.limit e h1
          · rw [List.mem_singleton] at h2
            rw [h2]
            exact hstatic.2.2.1.trans hLIMv
        have hqs1 : ∀ e ∈ s.2.1 ++ [(s.1.order_id, s.1)], e.2.quantity < U64 := by
          intro e he
          rcases List.mem_append.mp he with h1 | h2
          · exact LS.inv.qsmall e h1
          · rw [List.mem_singleton] at h2
            rw [h2]
            exact lt_of_le_of_lt LS.qmono hqU
        by_cases hrest : 0 < s.1.quantity
        · rw [if_pos hrest]
          refine ⟨?_, ?_⟩
          · dsimp only
            refine ViewInv_transfer LS.inv ?_ ?_ hnd1 hlim1 hqs1
            · intro q
              rw [sideQty_append_single]
              have h0 : levelQty true q s.1 = 0 := by
                rw [levelQty, if_neg]
                intro hat'
                have := hat'.1
                rw [hstatic.2.1, hbf] at this
                exact Bool.noConfusion this
              omega
            · intro q ⟨e, he, hat⟩
              exact ⟨e, List.mem_append_left _ he, hat⟩
          · dsimp only
            refine ViewInv_insert askLt_trans askLt_total hbase
              (hstatic.2.1.trans hbf) (hstatic.2.2.1.trans hLIMv) rfl
              (fun q => sideQty_append_single false q _ s.1 s.2.1)
              ⟨(s.1.order_id, s.1), List.mem_append_right _ (List.mem_singleton.mpr rfl),
                hstatic.2.1.trans hbf, hstatic.2.2.1.trans hLIMv, rfl⟩
              (fun q ⟨e, he, hat⟩ => ⟨e, List.mem_append_left _ he, hat⟩)
              hnd1 hlim1 hqs1 ?_
            rw [LS.others false s.1.price (by simp), hstatic.2.2.2]
            have := LS.qmono
            omega
        · rw [if_neg hrest]
          exact ⟨LS.inv, hbase⟩

theorem ladSet_mem {lt : Int → Int → Bool} {m : List (Int × Nat)} {p : Int}
    {v : Nat} {e : Int × Nat} (h : e ∈ ladSet lt m p v) : e = (p, v) ∨ e ∈ m := by
  induction m with
  | nil => simpa [ladSet] using h
  | cons f rest ih =>
    obtain ⟨q, w⟩ := f
    rw [ladSet] at h
    by_cases hpq : p = q
    · rw [if_pos hpq] at h
      rcases List.mem_cons.mp h with rfl | h'
      · exact Or.inl (by rw [hpq])
      · exact Or.inr (List.mem_cons_of_mem _ h')
    · rw [if_neg hpq] at h
      by_cases hlt : lt p q
      · rw [if_pos hlt] at h
        rcases List.mem_cons.mp h with rfl | h'
        · exact Or.inl rfl
        · exact Or.inr h'
      · rw [if_neg hlt] at h
        rcases List.mem_cons.mp h with rfl | h'
        · exact Or.inr (List.mem_cons_self _ _)
        · rcases ih h' with h2 | h2
          · exact Or.inl h2
          · exact Or.inr (List.mem_cons_of_mem _ h2)

theorem mapErase_subset {m : List (Int × Nat)} {p : Int} {e : Int × Nat}
    (h : e ∈ mapErase m p) : e ∈ m := List.mem_of_mem_filter h

theorem scan_nozero (buyAgg : Bool) (lt : Int → Int → Bool) (aggId : Nat)
    (p : Int) (es : List (Nat × Order)) (inc : Nat)
    (lad cnts : List (Int × Nat)) (h : ∀ e ∈ lad, e.2 ≠ 0) :
    ∀ e ∈ (scanContra buyAgg lt aggId p es inc lad cnts).lad, e.2 ≠ 0 := by
  induction es generalizing inc lad cnts with
  | nil => rw [scanContra]; exact h
  | cons f rest ih =>
    obtain ⟨oid, o⟩ := f
    simp only [scanContra]
    by_cases hcond : o.is_buy = (!buyAgg) ∧ o.order_type = OrderType.LIMIT ∧
        o.price = p ∧ 0 < inc
    · rw [if_pos hcond]
      have h' : ∀ e ∈ (if u64sub (mapGetD lad p) (min inc o.quantity) = 0 then
          mapErase lad p
          else ladSet lt lad p (u64sub (mapGetD lad p) (min inc o.quantity))),
          e.2 ≠ 0 := by
        intro e he
        split at he
        · exact h e (mapErase_subset he)
        · rcases ladSet_mem he with rfl | he'
          · simpa using by assumption
          · exact h e he'
      by_cases hbrk : inc - min inc o.quantity = 0
      · rw [if_pos hbrk]
        exact h'
      · rw [if_neg hbrk]
        exact ih _ _ _ h'
    · rw [if_neg hcond]
      exact ih _ _ _ h

theorem matchLoop_nozero (buyAgg : Bool) (lt : Int → Int → Bool)
    (crossOK : Int → Bool) (fuel : Nat) (o : Order)
    (orders : List (Nat × Order)) (lad cnts : List (Int × Nat))
    (tr : List Trade) (h : ∀ e ∈ lad, e.2 ≠ 0) :
    ∀ e ∈ (matchLoop buyAgg lt crossOK fuel o orders lad cnts tr).2.2.1,
      e.2 ≠ 0 := by
  induction fuel generalizing o orders lad cnts tr with
  | zero => rw [matchLoop]; exact h
  | succ n ih =>
    cases lad with
    | nil => rw [matchLoop]; exact h
    | cons hd tl =>
      obtain ⟨bp, bv⟩ := hd
      simp only [matchLoop]
      by_cases hg : 0 < o.quantity ∧ crossOK bp
      · rw [if_pos hg]
        exact ih _ _ _ _ _ (scan_nozero _ _ _ _ _ _ _ _ h)
      · rw [if_neg hg]
        exact h

theorem ladderRemove_nozero {lt : Int → Int → Bool} {lad cnts : List (Int × Nat)}
    (p : Int) (qty : Nat) (h : ∀ e ∈ lad, e.2 ≠ 0) :
    ∀ e ∈ (ladderRemove lt lad cnts p qty).1, e.2 ≠ 0 := by
  rw [ladderRemove]
  cases hfind : mapFind lad p with
  | none => exact h
  | some v =>
    dsimp only
    by_cases hle : v ≤ qty
    · rw [if_pos hle]
      intro e he
      exact h e (mapErase_subset he)
    · rw [if_neg hle]
      intro e he
      rcases ladSet_mem he with rfl | he'
      · simp only
        omega
      · exact h e he'

theorem cancel_order_nozero (d : OrderBookData) (i : Nat) (hZ : NoZeroEntry d) :
    NoZeroEntry (cancel_order d i).1 := by
  rw [cancel_order]
  cases hfind : regFind d.orders i with
  | none => exact hZ
  | some o =>
    dsimp only
    by_cases hLIM : o.order_type = OrderType.LIMIT
    · rw [if_pos hLIM]
      by_cases hb : o.is_buy
      · rw [if_pos hb]
        exact ⟨ladderRemove_nozero o.price o.quantity hZ.1, hZ.2⟩
      · rw [if_neg hb]
        exact ⟨hZ.1, ladderRemove_nozero o.price o.quantity hZ.2⟩
    · rw [if_neg hLIM]
      exact hZ

theorem add_order_nozero (d : OrderBookData) (o : Order) (hI : BookInv d)
    (hZ : NoZeroEntry d) (_hqU : o.quantity < U64)
    (hofb : sideQty true o.price d.orders + o.quantity < U64)
    (hofa : sideQty false o.price d.orders + o.quantity < U64) :
    NoZeroEntry (add_order d o).1 := by
  rw [add_order, add_order_full]
  by_cases hdup : (regFind d.orders o.order_id).isSome
  · rw [if_pos hdup]
    exact hZ
  · rw [if_neg hdup]
    by_cases hmkt : o.order_type = OrderType.MARKET
    · rw [if_pos hmkt]
      by_cases hb : o.is_buy
      · rw [if_pos hb]
        exact ⟨hZ.1, matchLoop_nozero _ _ _ _ _ _ _ _ _ hZ.2⟩
      · rw [if_neg hb]
        exact ⟨matchLoop_nozero _ _ _ _ _ _ _ _ _ hZ.1, hZ.2⟩
    · rw [if_neg hmkt]
      by_cases hb : o.is_buy
      · rw [if_pos hb]
        have LS := matchLoop_spec true askLt (fun bp => decide (bp ≤ o.price))
          askLt_trans askLt_total askLt_irrefl (d.asks.length + 1) o d.orders
          d.asks d.ask_order_counts [] (by omega) hI.askV
        set s := matchLoop true askLt (fun bp => decide (bp ≤ o.price))
          (d.asks.length + 1) o d.orders d.asks d.ask_order_counts [] with hsdef
        by_cases hrest : 0 < s.1.quantity
        · rw [if_pos hrest]
          refine ⟨?_, matchLoop_nozero _ _ _ _ _ _ _ _ _ hZ.2⟩
          intro e he
          rcases ladSet_mem he with rfl | he'
          · simp only
            have hvv : mapGetD d.bids s.1.price + s.1.quantity < U64 := by
              rw [hI.bidV.agg, LS.static.2.2.2]
              have := LS.qmono
              omega
            rw [u64add_exact hvv]
            omega
          · exact hZ.1 e he'
        · rw [if_neg hrest]
          exact ⟨hZ.1, matchLoop_nozero _ _ _ _ _ _ _ _ _ hZ.2⟩
      · rw [if_neg hb]
        have LS := matchLoop_spec false bidLt (fun bp => decide (o.price ≤ bp))
          bidLt_trans bidLt_total bidLt_irrefl (d.bids.length + 1) o d.orders
          d.bids d.bid_order_counts [] (by omega) hI.bidV
        set s := matchLoop false bidLt (fun bp => decide (o.price ≤ bp))
          (d.bids.length + 1) o d.orders d.bids d.bid_order_counts [] with hsdef
        by_cases hrest : 0 < s.1.quantity
        · rw [if_pos hrest]
          refine ⟨matchLoop_nozero _ _ _ _ _ _ _ _ _ hZ.1, ?_⟩
          intro e he
          rcases ladSet_mem he with rfl | he'
          · simp only
            have hvv : mapGetD d.asks s.1.price + s.1.quantity < U64 := by
              rw [hI.askV.agg, LS.static.2.2.2]
              have := LS.qmono
              omega
            rw [u64add_exact hvv]
            omega
          · exact hZ.2 e he'
        · rw [if_neg hrest]
          exact ⟨matchLoop_nozero _ _ _ _ _ _ _ _ _ hZ.1, hZ.2⟩

theorem amend_order_nozero (d : OrderBookData) (i : Nat) (np : Int) (nq : Nat)
    (hI : BookInv d) (hZ : NoZeroEntry d) (hnq0 : 0 < nq) (_hnq : nq < U64)
    (hofb : sideQty true np d.orders + nq < U64)
    (hofa : sideQty false np d.orders + nq < U64) :
    NoZeroEntry (amend_order d i np nq).1 := by
  rw [amend_order]
  cases hfind : regFind d.orders i with
  | none => exact hZ
  | some o =>
    dsimp only
    have hmem := regFind_eq_some_mem hfind
    have hLIM : o.order_type = OrderType.LIMIT := hI.bidV.limit (i, o) hmem
    rw [if_pos hLIM]
    by_cases hb : o.is_buy
    · rw [if_pos hb, if_pos hb]
      dsimp only
      have hC := ViewInv_cancel_own bidLt_trans bidLt_total hI.bidV hfind hb
      refine ⟨?_, hZ.2⟩
      intro e he
      rcases ladSet_mem he with rfl | he'
      · simp only
        have hle : sideQty true np (regErase d.orders i) ≤
            sideQty true np d.orders := by
          have := sideQty_regErase (b := true) (p := np) hI.bidV.nodup hfind
          omega
        have hvv : mapGetD (ladderRemove bidLt d.bids d.bid_order_counts o.price
            o.quantity).1 np + nq < U64 := by
          rw [hC.agg np]
          omega
        rw [u64add_exact hvv]
        omega
      · exact ladderRemove_nozero o.price o.quantity hZ.1 e he'
    · rw [if_neg hb, if_neg hb]
      dsimp only
      have hbf : o.is_buy = false := by simpa using hb
      have hC := ViewInv_cancel_own askLt_trans askLt_total hI.askV hfind hbf
      refine ⟨hZ.1, ?_⟩
      intro e he
      rcases ladSet_mem he with rfl | he'
      · simp only
        have hle : sideQty false np (regErase d.orders i) ≤
            sideQty false np d.orders := by
          have := sideQty_regErase (b := false) (p := np) hI.askV.nodup hfind
          omega
        have hvv : mapGetD (ladderRemove askLt d.asks d.ask_order_counts o.price
            o.quantity).1 np + nq < U64 := by
          rw [hC.agg np]
          omega
        rw [u64add_exact hvv]
        omega
      · exact ladderRemove_nozero o.price o.quantity hZ.2 e he'

theorem sorted_ask_head_le {p0 : Int} {v0 : Nat} {rest : List (Int × Nat)}
    (hs : ladSorted askLt ((p0, v0) :: rest)) {q : Int}
    (hq : q ∈ mapKeys ((p0, v0) :: rest)) : p0 ≤ q := by
  rw [ladSorted, List.pairwise_cons] at hs
  rw [mapKeys, List.map_cons, List.mem_cons] at hq
  rcases hq with rfl | hq'
  · exact le_refl _
  · obtain ⟨e, he, hkeq⟩ := List.mem_map.mp hq'
    have := hs.1 e he
    simp only [askLt, decide_eq_true_eq] at this
    omega

theorem sorted_bid_head_ge {p0 : Int} {v0 : Nat} {rest : List (Int × Nat)}
    (hs : ladSorted bidLt ((p0, v0) :: rest)) {q : Int}
    (hq : q ∈ mapKeys ((p0, v0) :: rest)) : q ≤ p0 := by
  rw [ladSorted, List.pairwise_cons] at hs
  rw [mapKeys, List.map_cons, List.mem_cons] at hq
  rcases hq with rfl | hq'
  · exact le_refl _
  · obtain ⟨e, he, hkeq⟩ := List.mem_map.mp hq'
    have := hs.1 e he
    simp only [bidLt, decide_eq_true_eq] at this
    omega

theorem ladSet_head_cases {lt : Int → Int → Bool} {m : List (Int × Nat)}
    {p : Int} {v : Nat} {q : Int} {w : Nat} {rest' : List (Int × Nat)}
    (h : ladSet lt m p v = (q, w) :: rest') :
    q = p ∨ ∃ v0 r0, m = (q, v0) :: r0 := by
  cases m with
  | nil =>
    rw [ladSet] at h
    have := List.head_eq_of_cons_eq h
    exact Or.inl (congrArg Prod.fst this).symm
  | cons f r =>
    obtain ⟨q0, w0⟩ := f
    rw [ladSet] at h
    by_cases hpq : p = q0
    · rw [if_pos hpq] at h
      have := List.head_eq_of_cons_eq h
      have hq : q0 = q := congrArg Prod.fst this
      exact Or.inr ⟨w0, r, by rw [hq]⟩
    · rw [if_neg hpq] at h
      by_cases hlt : lt p q0
      · rw [if_pos hlt] at h
        have := List.head_eq_of_cons_eq h
        exact Or.inl (congrArg Prod.fst this).symm
      · rw [if_neg hlt] at h
        have := List.head_eq_of_cons_eq h
        have hq : q0 = q := congrArg Prod.fst this
        exact Or.inr ⟨w0, r, by rw [hq]⟩

theorem get_best_bid_eq (d : OrderBookData) : get_best_bid d = bestKey d.bids := by
  cases h : d.bids <;> simp [get_best_bid, bestKey, h]

theorem get_best_ask_eq (d : OrderBookData) : get_best_ask d = bestKey d.asks := by
  cases h : d.asks <;> simp [get_best_ask, bestKey, h]

theorem uncrossed_mk {orders : List (Nat × Order)} {bids asks bc ac : List (Int × Nat)}
    (h : bids = [] ∨ asks = [] ∨ bestKey bids < bestKey asks) :
    uncrossed ⟨orders, bids, asks, bc, ac⟩ := by
  rw [uncrossed, get_best_bid_eq, get_best_ask_eq]
  exact h

theorem ladSet_ne_nil (lt : Int → Int → Bool) (m : List (Int × Nat)) (p : Int)
    (v : Nat) : ladSet lt m p v ≠ [] := by
  cases m with
  | nil => simp [ladSet]
  | cons f r =>
    obtain ⟨q, w⟩ := f
    rw [ladSet]
    split
    · simp
    · split <;> simp

/-- C3 (amended): on an invariant-satisfying book that is uncrossed, any
`add_order` leaves the book uncrossed.  (The original claim over all
reachable states fails because `amend_order` can cross the book.) -/
theorem C3_add_order_uncrossed (d : OrderBookData) (o : Order)
    (hI : BookInv d) (hU : uncrossed d) : uncrossed (add_order d o).1 := by
  rw [add_order, add_order_full]
  by_cases hdup : (regFind d.orders o.order_id).isSome
  · rw [if_pos hdup]
    exact hU
  · rw [if_neg hdup]
    by_cases hmkt : o.order_type = OrderType.MARKET
    · rw [if_pos hmkt]
      by_cases hb : o.is_buy
      · rw [if_pos hb]
        have LS := matchLoop_spec true askLt (fun _ => true) askLt_trans
          askLt_total askLt_irrefl (d.asks.length + 1) o d.orders d.asks
          d.ask_order_counts [] (by omega) hI.askV
        set s := matchLoop true askLt (fun _ => true) (d.asks.length + 1) o
          d.orders d.asks d.ask_order_counts [] with hsdef
        dsimp only
        apply uncrossed_mk
        cases hA : s.2.2.1 with
        | nil => exact Or.inr (Or.inl rfl)
        | cons ahd atl =>
          obtain ⟨ap, av⟩ := ahd
          have hsome : (mapFind s.2.2.1 ap).isSome := by
            rw [hA, mapFind, if_pos rfl]; rfl
          have hsome2 := LS.keysub ap hsome
          cases hasks : d.asks with
          | nil =>
            rw [hasks] at hsome2
            simp [mapFind] at hsome2
          | cons f r =>
            obtain ⟨a0, v0⟩ := f
            have hs' := hI.askV.sorted
            rw [hasks] at hs' hsome2
            have ha0 : a0 ≤ ap :=
              sorted_ask_head_le hs' ((mapFind_isSome_iff_mem _ _).mp hsome2)
            rcases hU with h1 | h2 | h3
            · exact Or.inl h1
            · rw [hasks] at h2
              exact absurd h2 (by simp)
            · right; right
              rw [get_best_bid_eq, get_best_ask_eq, hasks] at h3
              have h3' : bestKey d.bids < a0 := h3
              show bestKey d.bids < ap
              omega
      · rw [if_neg hb]
        have LS := matchLoop_spec false bidLt (fun _ => true) bidLt_trans
          bidLt_total bidLt_irrefl (d.bids.length + 1) o d.orders d.bids
          d.bid_order_counts [] (by omega) hI.bidV
        set s := matchLoop false bidLt (fun _ => true) (d.bids.length + 1) o
          d.orders d.bids d.bid_order_counts [] with hsdef
        dsimp only
        apply uncrossed_mk
        cases hB : s.2.2.1 with
        | nil => exact Or.inl rfl
        | cons bhd btl =>
          obtain ⟨bp, bv⟩ := bhd
          have hsome : (mapFind s.2.2.1 bp).isSome := by
            rw [hB, mapFind, if_pos rfl]; rfl
          have hsome2 := LS.keysub bp hsome
          cases hbids : d.bids with
          | nil =>
            rw [hbids] at hsome2
            simp [mapFind] at hsome2
          | cons f r =>
            obtain ⟨b0, v0⟩ := f
            have hs' := hI.bidV.sorted
            rw [hbids] at hs' hsome2
            have hb0 : bp ≤ b0 :=
              sorted_bid_head_ge hs' ((mapFind_isSome_iff_mem _ _).mp hsome2)
            rcases hU with h1 | h2 | h3
            · rw [hbids] at h1
              exact absurd h1 (by simp)
            · exact Or.inr (Or.inl h2)
            · right; right
              rw [get_best_bid_eq, get_best_ask_eq, hbids] at h3
              have h3' : b0 < bestKey d.asks := h3
              show bp < bestKey d.asks
              omega
    · rw [if_neg hmkt]
      by_cases hb : o.is_buy
      · rw [if_pos hb]
        have LS := matchLoop_spec true askLt (fun bp => decide (bp ≤ o.price))
          askLt_trans askLt_total askLt_irrefl (d.asks.length + 1) o d.orders
          d.asks d.ask_order_counts [] (by omega) hI.askV
        set s := matchLoop true askLt (fun bp => decide (bp ≤ o.price))
          (d.asks.length + 1) o d.orders d.asks d.ask_order_counts [] with hsdef
        by_cases hrest : 0 < s.1.quantity
        · rw [if_pos hrest]
          dsimp only
          apply uncrossed_mk
          cases hA : s.2.2.1 with
          | nil => exact Or.inr (Or.inl rfl)
          | cons ahd atl =>
            obtain ⟨ap, av⟩ := ahd
            have hpost := LS.post hrest
            rw [hA] at hpost
            rcases hpost with h0 | ⟨bp', bv', rest', heq, hcross⟩
            · exact absurd h0 (by simp)
            · have hbp : bp' = ap :=
                (congrArg Prod.fst (List.head_eq_of_cons_eq heq)).symm
              rw [hbp] at hcross
              have hap : o.price < ap := by
                simpa using of_decide_eq_false hcross
              right; right
              cases hL : ladSet bidLt d.bids s.1.price
                  (u64add (mapGetD d.bids s.1.price) s.1.quantity) with
              | nil => exact absurd hL (ladSet_ne_nil _ _ _ _)
              | cons lhd rest2 =>
                obtain ⟨q, w⟩ := lhd
                show q < ap
                rcases ladSet_head_cases hL with hq | ⟨v0', r0', hbids⟩
                · rw [hq, LS.static.2.2.2]
                  omega
                · have hsome : (mapFind s.2.2.1 ap).isSome := by
                    rw [hA, mapFind, if_pos rfl]; rfl
                  have hsome2 := LS.keysub ap hsome
                  cases hasks : d.asks with
                  | nil =>
                    rw [hasks] at hsome2
                    simp [mapFind] at hsome2
                  | cons f r =>
                    obtain ⟨a0, av0⟩ := f
                    have hs' := hI.askV.sorted
                    rw [hasks] at hs' hsome2
                    have ha0 : a0 ≤ ap := sorted_ask_head_le hs'
                      ((mapFind_isSome_iff_mem _ _).mp hsome2)
                    rcases hU with h1 | h2 | h3
                    · rw [hbids] at h1
                      exact absurd h1 (by simp)
                    · rw [hasks] at h2
                      exact absurd h2 (by simp)
                    · rw [get_best_bid_eq, get_best_ask_eq, hbids, hasks] at h3
                      have h3' : q < a0 := h3
                      omega
        · rw [if_neg hrest]
          dsimp only
          apply uncrossed_mk
          cases hA : s.2.2.1 with
          | nil => exact Or.inr (Or.inl rfl)
          | cons ahd atl =>
            obtain ⟨ap, av⟩ := ahd
            have hsome : (mapFind s.2.2.1 ap).isSome := by
              rw [hA, mapFind, if_pos rfl]; rfl
            have hsome2 := LS.keysub ap hsome
            cases hasks : d.asks with
            | nil =>
              rw [hasks] at hsome2
              simp [mapFind] at hsome2
            | cons f r =>
              obtain ⟨a0, v0⟩ := f
              have hs' := hI.askV.sorted
              rw [hasks] at hs' hsome2
              have ha0 : a0 ≤ ap :=
                sorted_ask_head_le hs' ((mapFind_isSome_iff_mem _ _).mp hsome2)
              rcases hU with h1 | h2 | h3
              · exact Or.inl h1
              · rw [hasks] at h2
                exact absurd h2 (by simp)
              · right; right
                rw [get_best_bid_eq, get_best_ask_eq, hasks] at h3
                have h3' : bestKey d.bids < a0 := h3
                show bestKey d.bids < ap
                omega
      · rw [if_neg hb]
        have LS := matchLoop_spec false bidLt (fun bp => decide (o.price ≤ bp))
          bidLt_trans bidLt_total bidLt_irrefl (d.bids.length + 1) o d.orders
          d.bids d.bid_order_counts [] (by omega) hI.bidV
        set s := matchLoop false bidLt (fun bp => decide (o.price ≤ bp))
          (d.bids.length + 1) o d.orders d.bids d.bid_order_counts [] with hsdef
        by_cases hrest : 0 < s.1.quantity
        · rw [if_pos hrest]
          dsimp only
          apply uncrossed_mk
          cases hB : s.2.2.1 with
          | nil => exact Or.inl rfl
          | cons bhd btl =>
            obtain ⟨bp, bv⟩ := bhd
            have hpost := LS.post hrest
            rw [hB] at hpost
            rcases hpost with h0 | ⟨bp', bv', rest', heq, hcross⟩
            · exact absurd h0 (by simp)
            · have hbp : bp' = bp :=
                (congrArg Prod.fst (List.head_eq_of_cons_eq heq)).symm
              rw [hbp] at hcross
              have hbpo : bp < o.price := by
                simpa using of_decide_eq_false hcross
              right; right
              cases hL : ladSet askLt d.asks s.1.price
                  (u64add (mapGetD d.asks s.1.price) s.1.quantity) with
              | nil => exact absurd hL (ladSet_ne_nil _ _ _ _)
              | cons lhd rest2 =>
                obtain ⟨q, w⟩ := lhd
                show bp < q
                rcases ladSet_head_cases hL with hq | ⟨v0', r0', hasks⟩
                · rw [hq, LS.static.2.2.2]
                  omega
                · have hsome : (mapFind s.2.2.1 bp).isSome := by
                    rw [hB, mapFind, if_pos rfl]; rfl
                  have hsome2 := LS.keysub bp hsome
                  cases hbids : d.bids with
                  | nil =>
                    rw [hbids] at hsome2
                    simp [mapFind] at hsome2
                  | cons f r =>
                    obtain ⟨b0, bv0⟩ := f
                    have hs' := hI.bidV.sorted
                    rw [hbids] at hs' hsome2
                    have hb0 : bp ≤ b0 := sorted_bid_head_ge hs'
                      ((mapFind_isSome_iff_mem _ _).mp hsome2)
                    rcases hU with h1 | h2 | h3
                    · rw [hbids] at h1
                      exact absurd h1 (by simp)
                    · rw [hasks] at h2
                      exact absurd h2 (by simp)
                    · rw [get_best_bid_eq, get_best_ask_eq, hbids, hasks] at h3
                      have h3' : b0 < q := h3
                      omega
        · rw [if_neg hrest]
          dsimp only
          apply uncrossed_mk
          cases hB : s.2.2.1 with
          | nil => exact Or.inl rfl
          | cons bhd btl =>
            obtain ⟨bp, bv⟩ := bhd
            have hsome : (mapFind s.2.2.1 bp).isSome := by
              rw [hB, mapFind, if_pos rfl]; rfl
            have hsome2 := LS.keysub bp hsome
            cases hbids : d.bids with
            | nil =>
              rw [hbids] at hsome2
              simp [mapFind] at hsome2
            | cons f r =>
              obtain ⟨b0, v0⟩ := f
              have hs' := hI.bidV.sorted
              rw [hbids] at hs' hsome2
              have hb0 : bp ≤ b0 :=
                sorted_bid_head_ge hs' ((mapFind_isSome_iff_mem _ _).mp hsome2)
              rcases hU with h1 | h2 | h3
              · rw [hbids] at h1
                exact absurd h1 (by simp)
              · exact Or.inr (Or.inl h2)
              · right; right
                rw [get_best_bid_eq, get_best_ask_eq, hbids] at h3
                have h3' : b0 < bestKey d.asks := h3
                show bp < bestKey d.asks
                omega

/-! ## Round-trip map lemmas (claim C7 machinery) -/

theorem mapErase_ladSet_absent {lt : Int → Int → Bool} {m : List (Int × Nat)}
    {p : Int} (v : Nat) (h : mapFind m p = none) :
    mapErase (ladSet lt m p v) p = m := by
  induction m with
  | nil => simp [ladSet, mapErase]
  | cons f r ih =>
    obtain ⟨q, w⟩ := f
    rw [mapFind] at h
    by_cases hpq : p = q
    · rw [if_pos hpq] at h
      exact Option.noConfusion h
    · rw [if_neg hpq] at h
      rw [ladSet, if_neg hpq]
      by_cases hlt : lt p q
      · rw [if_pos hlt, mapErase, List.filter_cons_of_neg (by simp [hpq]),
          List.filter_cons_of_pos (by simpa using fun hh => hpq hh.symm)]
        have : mapErase r p = r := mapErase_find_none h
        rw [mapErase] at this
        rw [this]
      · rw [if_neg hlt, mapErase,
          List.filter_cons_of_pos (by simpa using fun hh => hpq hh.symm)]
        rw [mapErase] at ih
        rw [ih h]

theorem ladSet_ladSet_same (lt : Int → Int → Bool) (m : List (Int × Nat))
    (p : Int) (w v : Nat) : ladSet lt (ladSet lt m p w) p v = ladSet lt m p v := by
  induction m with
  | nil => simp [ladSet]
  | cons f r ih =>
    obtain ⟨q, u⟩ := f
    by_cases hpq : p = q
    · rw [ladSet, if_pos hpq, ladSet, if_pos hpq, ladSet, if_pos hpq]
    · by_cases hlt : lt p q
      · rw [ladSet, if_neg hpq, if_pos hlt, ladSet, if_pos rfl, ladSet,
          if_neg hpq, if_pos hlt]
      · rw [ladSet, if_neg hpq, if_neg hlt, ladSet, if_neg hpq, if_neg hlt,
          ladSet, if_neg hpq, if_neg hlt, ih]

theorem ladSet_find_self {lt : Int → Int → Bool}
    (htr : ∀ a b c : Int, lt a b = true → lt b c = true → lt a c = true)
    (hirr : ∀ a : Int, lt a a = false) {m : List (Int × Nat)}
    {p : Int} {v : Nat} (hs : ladSorted lt m) (h : mapFind m p = some v) :
    ladSet lt m p v = m := by
  induction m with
  | nil => exact Option.noConfusion h
  | cons f r ih =>
    obtain ⟨q, u⟩ := f
    rw [mapFind] at h
    rw [ladSorted, List.pairwise_cons] at hs
    by_cases hpq : p = q
    · rw [if_pos hpq] at h
      rw [ladSet, if_pos hpq, Option.some.inj h]
    · rw [if_neg hpq] at h
      rw [ladSet, if_neg hpq]
      by_cases hlt : lt p q
      · exfalso
        have hpk : p ∈ mapKeys r := by
          rw [← mapFind_isSome_iff_mem, h]
          rfl
        obtain ⟨e, he, hkeq⟩ := List.mem_map.mp hpk
        have hqp : lt q p = true := by
          have := hs.1 e he
          rw [hkeq] at this
          exact this
        have := htr p q p hlt hqp
        rw [hirr] at this
        exact Bool.noConfusion this
      · rw [if_neg hlt, ih hs.2 h]

theorem oneOrderBook_inv : BookInv oneOrderBook :=
  add_order_inv emptyBook ⟨1, true, OrderType.LIMIT, 10, 5⟩ inv_emptyBook
    (by decide) (by decide) (by decide)

theorem askBook_inv : BookInv askBook :=
  add_order_inv emptyBook ⟨1, false, OrderType.LIMIT, 10, 5⟩ inv_emptyBook
    (by decide) (by decide) (by decide)

/-- C4: adding an order whose id is already registered is a silent no-op:
the state is unchanged and the returned trade list is empty. -/
theorem C4_duplicate_add_noop (d : OrderBookData) (o : Order)
    (h : (regFind d.orders o.order_id).isSome) :
    add_order d o = (d, []) := by
  simp only [add_order, add_order_full, if_pos h]

theorem C4_witness :
    (regFind oneOrderBook.orders 1).isSome = true ∧
    add_order oneOrderBook ⟨1, false, OrderType.LIMIT, 7, 3⟩ =
      (oneOrderBook, []) :=
  ⟨by decide,
   C4_duplicate_add_noop oneOrderBook ⟨1, false, OrderType.LIMIT, 7, 3⟩
     (by decide)⟩

/-- C5: cancelling or amending an unknown order id returns `false` and
mutates nothing, for every choice of new price and quantity. -/
theorem C5_unknown_id_noop (d : OrderBookData) (i : Nat)
    (h : regFind d.orders i = none) :
    cancel_order d i = (d, false) ∧
    ∀ np nq, amend_order d i np nq = (d, false) := by
  constructor
  · rw [cancel_order, h]
  · intro np nq
    rw [amend_order, h]

theorem C5_witness :
    regFind emptyBook.orders 999 = none ∧
    (cancel_order emptyBook 999 = (emptyBook, false) ∧
     amend_order emptyBook 999 7 3 = (emptyBook, false)) := by
  have h := C5_unknown_id_noop emptyBook 999 (by decide)
  exact ⟨by decide, h.1, h.2 7 3⟩

/-- C8 refuted (code bug): `get_best_bid` answers 0 both on an empty bid
ladder and on a non-empty ladder whose best price is the real value 0, so
emptiness is not distinguishable from a genuine zero best price in the
returned value. -/
theorem C8_zero_sentinel_ambiguous :
    zeroPriceBook.bids ≠ [] ∧ emptyBook.bids = [] ∧
    get_best_bid zeroPriceBook = get_best_bid emptyBook := by
  decide

/-- C9 (amended): `get_price_levels` is `get_snapshot` at the fixed depth
1000, so it returns every level of a side only while that side holds at most
1000 levels. -/
theorem C9_price_levels_capped (d : OrderBookData)
    (hb : d.bids.length ≤ 1000) (ha : d.asks.length ≤ 1000) :
    (get_price_levels d).1.length = d.bids.length ∧
    (get_price_levels d).2.length = d.asks.length := by
  constructor
  · simp only [get_price_levels, get_snapshot, List.length_map,
      List.length_take]
    omega
  · simp only [get_price_levels, get_snapshot, List.length_map,
      List.length_take]
    omega

theorem C9_witness :
    oneOrderBook.bids.length ≤ 1000 ∧ oneOrderBook.asks.length ≤ 1000 ∧
    ((get_price_levels oneOrderBook).1.length = oneOrderBook.bids.length ∧
     (get_price_levels oneOrderBook).2.length = oneOrderBook.asks.length) :=
  ⟨by decide, by decide,
   C9_price_levels_capped oneOrderBook (by decide) (by decide)⟩

set_option maxRecDepth 8192 in
/-- C9's unbounded-depth reading refuted: on a book with 1001 bid levels,
`get_price_levels` returns only 1000 of them. -/
theorem C9_counterexample :
    (get_price_levels wideBook).1.length ≠ wideBook.bids.length := by
  decide

/-- C10: for a fresh-id order on an invariant-satisfying book, the residual
quantity after matching plus the total quantity of the returned trades equals
the submitted quantity; a LIMIT order with positive residual rests in the
registry at exactly the residual, and a MARKET order is never registered. -/
theorem C10_quantity_conservation (d : OrderBookData) (o : Order)
    (hI : BookInv d) (hfresh : regFind d.orders o.order_id = none) :
    (add_order_full d o).1.quantity +
      (((add_order_full d o).2.2).map (fun t => t.quantity)).sum = o.quantity ∧
    (o.order_type = OrderType.LIMIT → 0 < (add_order_full d o).1.quantity →
      regFind (add_order_full d o).2.1.orders o.order_id =
        some (add_order_full d o).1) ∧
    (o.order_type = OrderType.MARKET →
      regFind (add_order_full d o).2.1.orders o.order_id = none) := by
  have hdup : ¬ (regFind d.orders o.order_id).isSome := by
    rw [hfresh]
    simp
  rw [add_order_full, if_neg hdup]
  by_cases hmkt : o.order_type = OrderType.MARKET
  · rw [if_pos hmkt]
    by_cases hb : o.is_buy
    · rw [if_pos hb]
      have LS := matchLoop_spec true askLt (fun _ => true) askLt_trans
        askLt_total askLt_irrefl (d.asks.length + 1) o d.orders d.asks
        d.ask_order_counts [] (by omega) hI.askV
      obtain ⟨trN, htr, hcons, _⟩ := LS.trades
      dsimp only
      refine ⟨?_, ?_, ?_⟩
      · rw [htr]
        simpa using hcons
      · intro hL
        rw [hmkt] at hL
        exact OrderType.noConfusion hL
      · intro _
        exact LS.fresh o.order_id hfresh
    · rw [if_neg hb]
      have LS := matchLoop_spec false bidLt (fun _ => true) bidLt_trans
        bidLt_total bidLt_irrefl (d.bids.length + 1) o d.orders d.bids
        d.bid_order_counts [] (by omega) hI.bidV
      obtain ⟨trN, htr, hcons, _⟩ := LS.trades
      dsimp only
      refine ⟨?_, ?_, ?_⟩
      · rw [htr]
        simpa using hcons
      · intro hL
        rw [hmkt] at hL
        exact OrderType.noConfusion hL
      · intro _
        exact LS.fresh o.order_id hfresh
  · rw [if_neg hmkt]
    by_cases hb : o.is_buy
    · rw [if_pos hb]
      have LS := matchLoop_spec true askLt (fun bp => decide (bp ≤ o.price))
        askLt_trans askLt_total askLt_irrefl (d.asks.length + 1) o d.orders
        d.asks d.ask_order_counts [] (by omega) hI.askV
      set s := matchLoop true askLt (fun bp => decide (bp ≤ o.price))
        (d.asks.length + 1) o d.orders d.asks d.ask_order_counts [] with hsdef
      obtain ⟨trN, htr, hcons, _⟩ := LS.trades
      by_cases hrest : 0 < s.1.quantity
      · rw [if_pos hrest]
        refine ⟨?_, ?_, ?_⟩
        · dsimp only
          rw [htr]
          simpa using hcons
        · intro _ _
          dsimp only
          rw [regFind_append]
          rw [LS.fresh o.order_id hfresh]
          rw [regFind, if_pos LS.static.1.symm]
        · intro hM
          exact absurd hM hmkt
      · rw [if_neg hrest]
        refine ⟨?_, ?_, ?_⟩
        · dsimp only
          rw [htr]
          simpa using hcons
        · intro _ hpos
          exact absurd hpos hrest
        · intro hM
          exact absurd hM hmkt
    · rw [if_neg hb]
      have LS := matchLoop_spec false bidLt (fun bp => decide (o.price ≤ bp))
        bidLt_trans bidLt_total bidLt_irrefl (d.bids.length + 1) o d.orders
        d.bids d.bid_order_counts [] (by omega) hI.bidV
      set s := matchLoop false bidLt (fun bp => decide (o.price ≤ bp))
        (d.bids.length + 1) o d.orders d.bids d.bid_order_counts [] with hsdef
      obtain ⟨trN, htr, hcons, _⟩ := LS.trades
      by_cases hrest : 0 < s.1.quantity
      · rw [if_pos hrest]
        refine ⟨?_, ?_, ?_⟩
        · dsimp only
          rw [htr]
          simpa using hcons
        · intro _ _
          dsimp only
          rw [regFind_append]
          rw [LS.fresh o.order_id hfresh]
          rw [regFind, if_pos LS.static.1.symm]
        · intro hM
          exact absurd hM hmkt
      · rw [if_neg hrest]
        refine ⟨?_, ?_, ?_⟩
        · dsimp only
          rw [htr]
          simpa using hcons
        · intro _ hpos
          exact absurd hpos hrest
        · intro hM
          exact absurd hM hmkt

theorem C10_witness :
    BookInv oneOrderBook ∧
    regFind oneOrderBook.orders 2 = none ∧
    ((add_order_full oneOrderBook ⟨2, false, OrderType.LIMIT, 10, 3⟩).1.quantity +
      (((add_order_full oneOrderBook
          ⟨2, false, OrderType.LIMIT, 10, 3⟩).2.2).map
        (fun t => t.quantity)).sum = 3 ∧
     ((⟨2, false, OrderType.LIMIT, 10, 3⟩ : Order).order_type =
        OrderType.LIMIT →
      0 < (add_order_full oneOrderBook
        ⟨2, false, OrderType.LIMIT, 10, 3⟩).1.quantity →
      regFind (add_order_full oneOrderBook
          ⟨2, false, OrderType.LIMIT, 10, 3⟩).2.1.orders 2 =
        some (add_order_full oneOrderBook
          ⟨2, false, OrderType.LIMIT, 10, 3⟩).1) ∧
     ((⟨2, false, OrderType.LIMIT, 10, 3⟩ : Order).order_type =
        OrderType.MARKET →
      regFind (add_order_full oneOrderBook
          ⟨2, false, OrderType.LIMIT, 10, 3⟩).2.1.orders 2 = none)) :=
  ⟨oneOrderBook_inv, by decide,
   C10_quantity_conservation oneOrderBook ⟨2, false, OrderType.LIMIT, 10, 3⟩
     oneOrderBook_inv (by decide)⟩

/-- C6: a fresh-id MARKET order is never registered; the same-side ladder is
untouched; and when its quantity exceeds the total resting quantity on the
opposite side, the opposite ladder is drained to empty. -/
theorem C6_market_drain (d : OrderBookData) (o : Order) (hI : BookInv d)
    (hmkt : o.order_type = OrderType.MARKET)
    (hfresh : regFind d.orders o.order_id = none) :
    regFind (add_order d o).1.orders o.order_id = none ∧
    (o.is_buy = true →
      (add_order d o).1.bids = d.bids ∧
      (sideTotal false d.orders < o.quantity → (add_order d o).1.asks = [])) ∧
    (o.is_buy = false →
      (add_order d o).1.asks = d.asks ∧
      (sideTotal true d.orders < o.quantity → (add_order d o).1.bids = [])) := by
  have hdup : ¬ (regFind d.orders o.order_id).isSome := by
    rw [hfresh]
    simp
  rw [add_order, add_order_full, if_neg hdup, if_pos hmkt]
  by_cases hb : o.is_buy
  · rw [if_pos hb]
    have LS := matchLoop_spec true askLt (fun _ => true) askLt_trans
      askLt_total askLt_irrefl (d.asks.length + 1) o d.orders d.asks
      d.ask_order_counts [] (by omega) hI.askV
    set s := matchLoop true askLt (fun _ => true) (d.asks.length + 1) o
      d.orders d.asks d.ask_order_counts [] with hsdef
    dsimp only
    refine ⟨LS.fresh o.order_id hfresh, fun _ => ⟨rfl, ?_⟩, fun hb' => ?_⟩
    · intro hdrain
      rcases Nat.eq_zero_or_pos s.1.quantity with hq0 | hpos
      · exfalso
        have htot := LS.totals
        simp only [Bool.not_true] at htot
        omega
      · rcases LS.post hpos with hempty | ⟨bp, bv, rest, _, hfalse⟩
        · exact hempty
        · simp at hfalse
    · rw [hb] at hb'
      exact Bool.noConfusion hb'
  · rw [if_neg hb]
    have hbf : o.is_buy = false := by
      cases h : o.is_buy with
      | false => rfl
      | true => exact absurd h hb
    have LS := matchLoop_spec false bidLt (fun _ => true) bidLt_trans
      bidLt_total bidLt_irrefl (d.bids.length + 1) o d.orders d.bids
      d.bid_order_counts [] (by omega) hI.bidV
    set s := matchLoop false bidLt (fun _ => true) (d.bids.length + 1) o
      d.orders d.bids d.bid_order_counts [] with hsdef
    dsimp only
    refine ⟨LS.fresh o.order_id hfresh, fun hb' => ?_, fun _ => ⟨rfl, ?_⟩⟩
    · rw [hbf] at hb'
      exact Bool.noConfusion hb'
    · intro hdrain
      rcases Nat.eq_zero_or_pos s.1.quantity with hq0 | hpos
      · exfalso
        have htot := LS.totals
        simp only [Bool.not_false] at htot
        omega
      · rcases LS.post hpos with hempty | ⟨bp, bv, rest, _, hfalse⟩
        · exact hempty
        · simp at hfalse

theorem C6_witness :
    BookInv askBook ∧
    (⟨2, true, OrderType.MARKET, 0, 7⟩ : Order).order_type =
      OrderType.MARKET ∧
    regFind askBook.orders 2 = none ∧
    (regFind (add_order askBook ⟨2, true, OrderType.MARKET, 0, 7⟩).1.orders 2 =
      none ∧
     ((true : Bool) = true →
      (add_order askBook ⟨2, true, OrderType.MARKET, 0, 7⟩).1.bids =
        askBook.bids ∧
      (sideTotal false askBook.orders < 7 →
       (add_order askBook ⟨2, true, OrderType.MARKET, 0, 7⟩).1.asks = [])) ∧
     ((true : Bool) = false →
      (add_order askBook ⟨2, true, OrderType.MARKET, 0, 7⟩).1.asks =
        askBook.asks ∧
      (sideTotal true askBook.orders < 7 →
       (add_order askBook ⟨2, true, OrderType.MARKET, 0, 7⟩).1.bids = []))) :=
  ⟨askBook_inv, rfl, by decide,
   C6_market_drain askBook ⟨2, true, OrderType.MARKET, 0, 7⟩ askBook_inv rfl
     (by decide)⟩

/-- C1 (amended): the aggregate half of the ladder-consistency invariant
holds and is preserved by every public operation, under the stated
no-uint64-overflow side conditions.  (The count half of the original claim is
refuted by `C1_counterexample`: full fills at a surviving level never
decrement the level's order count.) -/
theorem C1_aggregate_consistency :
    BookInv emptyBook ∧
    (∀ d, BookInv d → ∀ p,
      mapGetD d.bids p = sideQty true p d.orders ∧
      mapGetD d.asks p = sideQty false p d.orders) ∧
    (∀ d o, BookInv d → o.quantity < U64 →
      sideQty true o.price d.orders + o.quantity < U64 →
      sideQty false o.price d.orders + o.quantity < U64 →
      BookInv (add_order d o).1) ∧
    (∀ d i, BookInv d → BookInv (cancel_order d i).1) ∧
    (∀ d i np nq, BookInv d → nq < U64 →
      sideQty true np d.orders + nq < U64 →
      sideQty false np d.orders + nq < U64 →
      BookInv (amend_order d i np nq).1) :=
  ⟨inv_emptyBook,
   fun _ hI p => ⟨hI.bidV.agg p, hI.askV.agg p⟩,
   fun d o hI hq hofb hofa => add_order_inv d o hI hq hofb hofa,
   fun d i hI => cancel_order_inv d i hI,
   fun d i np nq hI hnq hofb hofa => amend_order_inv d i np nq hI hnq hofb hofa⟩

/-- C1's count half refuted: in `c1State` the bid ladder still counts two
orders at price 10 although only one rests there. -/
theorem C1_counterexample :
    mapGetD c1State.bid_order_counts 10 ≠ sideCount true 10 c1State.orders := by
  decide

/-- C2 (amended): no ladder entry with zero aggregate quantity exists in the
empty book, and the property is preserved by add_order, cancel_order, and
amend_order with a positive new quantity, under the stated
no-uint64-overflow side conditions.  (The original claim's inclusion of
`new_quantity = 0` is refuted by `C2_counterexample`.) -/
theorem C2_no_zero_aggregate :
    NoZeroEntry emptyBook ∧
    (∀ d o, BookInv d → NoZeroEntry d → o.quantity < U64 →
      sideQty true o.price d.orders + o.quantity < U64 →
      sideQty false o.price d.orders + o.quantity < U64 →
      NoZeroEntry (add_order d o).1) ∧
    (∀ d i, NoZeroEntry d → NoZeroEntry (cancel_order d i).1) ∧
    (∀ d i np nq, BookInv d → NoZeroEntry d → 0 < nq → nq < U64 →
      sideQty true np d.orders + nq < U64 →
      sideQty false np d.orders + nq < U64 →
      NoZeroEntry (amend_order d i np nq).1) :=
  ⟨by decide,
   fun d o hI hZ hq hofb hofa => add_order_nozero d o hI hZ hq hofb hofa,
   fun d i hZ => cancel_order_nozero d i hZ,
   fun d i np nq hI hZ hnq0 hnq hofb hofa =>
     amend_order_nozero d i np nq hI hZ hnq0 hnq hofb hofa⟩

/-- C2 refuted for `new_quantity = 0`: amending a resting bid to quantity 0
leaves a bid ladder entry whose aggregate is 0. -/
theorem C2_counterexample : ¬ NoZeroEntry c2State := by
  decide

/-- C3 refuted over all reachable states: starting from the amendment-crossed
book `preC3`, an `add_order` call returns with both ladders non-empty and
best bid ≥ best ask. -/
theorem C3_counterexample :
    ¬ uncrossed (add_order preC3 ⟨3, false, OrderType.LIMIT, 40, 5⟩).1 := by
  decide

theorem C3_witness :
    BookInv oneOrderBook ∧ uncrossed oneOrderBook ∧
    uncrossed (add_order oneOrderBook ⟨2, false, OrderType.LIMIT, 15, 4⟩).1 :=
  ⟨oneOrderBook_inv, by decide,
   C3_add_order_uncrossed oneOrderBook ⟨2, false, OrderType.LIMIT, 15, 4⟩
     oneOrderBook_inv (by decide)⟩

/-- C7 (amended): on an invariant-satisfying book, adding a fresh-id LIMIT
order whose add returns no trades and immediately cancelling it restores
both ladders and both count maps exactly, provided any existing ladder entry
at the order's price has nonzero aggregate and no uint64 overflow occurs.
(When the add produces trades the round trip fails: `C7_counterexample`.) -/
theorem C7_add_cancel_roundtrip (d : OrderBookData) (o : Order)
    (hI : BookInv d) (hLIM : o.order_type = OrderType.LIMIT)
    (hfresh : regFind d.orders o.order_id = none)
    (hnt : (add_order d o).2 = [])
    (hz1 : mapFind d.bids o.price ≠ some 0)
    (hz2 : mapFind d.asks o.price ≠ some 0)
    (hof1 : mapGetD d.bids o.price + o.quantity < U64)
    (hof2 : mapGetD d.asks o.price + o.quantity < U64)
    (hc1 : mapGetD d.bid_order_counts o.price < U64)
    (hc2 : mapGetD d.ask_order_counts o.price < U64) :
    (cancel_order (add_order d o).1 o.order_id).1.bids = d.bids ∧
    (cancel_order (add_order d o).1 o.order_id).1.asks = d.asks ∧
    (cancel_order (add_order d o).1 o.order_id).1.bid_order_counts =
      d.bid_order_counts ∧
    (cancel_order (add_order d o).1 o.order_id).1.ask_order_counts =
      d.ask_order_counts := by
  have hdup : ¬ (regFind d.orders o.order_id).isSome := by
    rw [hfresh]
    simp
  have hmkt : ¬ (o.order_type = OrderType.MARKET) := by
    rw [hLIM]
    intro h
    exact OrderType.noConfusion h
  rw [add_order, add_order_full, if_neg hdup, if_neg hmkt] at hnt ⊢
  by_cases hb : o.is_buy
  · rw [if_pos hb] at hnt ⊢
    have LS := matchLoop_spec true askLt (fun bp => decide (bp ≤ o.price))
      askLt_trans askLt_total askLt_irrefl (d.asks.length + 1) o d.orders
      d.asks d.ask_order_counts [] (by omega) hI.askV
    set s := matchLoop true askLt (fun bp => decide (bp ≤ o.price))
      (d.asks.length + 1) o d.orders d.asks d.ask_order_counts [] with hsdef
    obtain ⟨trN, htr, hcons, hnoop⟩ := LS.trades
    simp only [List.nil_append] at htr
    have hp0 : s.1.price = o.price := LS.static.2.2.2
    have hid : s.1.order_id = o.order_id := LS.static.1
    by_cases hrest : 0 < s.1.quantity
    · rw [if_pos hrest] at hnt ⊢
      dsimp only at hnt ⊢
      have htrN : trN = [] := by
        rw [hnt] at htr
        exact htr.symm
      obtain ⟨hord, hlad, hcnts, hq⟩ := hnoop htrN
      rw [hord, hlad, hcnts, hp0, hq]
      have hfind1 : regFind (d.orders ++ [(s.1.order_id, s.1)]) o.order_id =
          some s.1 := by
        rw [regFind_append, hfresh, regFind, if_pos hid.symm]
      rw [cancel_order]
      dsimp only
      rw [hfind1]
      dsimp only
      have hsLIM : s.1.order_type = OrderType.LIMIT :=
        LS.static.2.2.1.trans hLIM
      have hsb : s.1.is_buy = true := LS.static.2.1.trans hb
      rw [if_pos hsLIM, if_pos hsb, hp0, hq]
      dsimp only
      rw [ladderRemove, mapFind_ladSet_self]
      dsimp only
      have hVe : u64add (mapGetD d.bids o.price) o.quantity =
          mapGetD d.bids o.price + o.quantity := u64add_exact hof1
      cases hfind0 : mapFind d.bids o.price with
      | none =>
        have hv0 : mapGetD d.bids o.price = 0 := by
          rw [mapGetD, hfind0]
          rfl
        have hle : u64add (mapGetD d.bids o.price) o.quantity ≤ o.quantity := by
          rw [hVe, hv0]
          omega
        rw [if_pos hle]
        have hcf : mapFind d.bid_order_counts o.price = none := by
          cases h : mapFind d.bid_order_counts o.price with
          | none => rfl
          | some c =>
            have hps := (hI.bidV.pair o.price).mpr (by rw [h]; rfl)
            rw [hfind0] at hps
            simp at hps
        dsimp only
        exact ⟨mapErase_ladSet_absent _ hfind0, rfl,
          mapErase_ladSet_absent _ hcf, rfl⟩
      | some w =>
        have hw0 : w ≠ 0 := fun h0 => hz1 (by rw [hfind0, h0])
        have hgw : mapGetD d.bids o.price = w := mapFind_getD_eq hfind0
        have hgt : ¬ (u64add (mapGetD d.bids o.price) o.quantity ≤
            o.quantity) := by
          rw [hVe, hgw]
          omega
        rw [if_neg hgt]
        dsimp only
        refine ⟨?_, rfl, ?_, rfl⟩
        · rw [ladSet_ladSet_same, hVe, hgw]
          have harith : w + o.quantity - o.quantity = w := by omega
          rw [harith]
          exact ladSet_find_self bidLt_trans bidLt_irrefl hI.bidV.sorted hfind0
        · rw [mapGetD_ladSet_self, u64sub_u64add_cancel hc1 (by decide),
            ladSet_ladSet_same]
          have hcs : (mapFind d.bid_order_counts o.price).isSome :=
            (hI.bidV.pair o.price).mp (by rw [hfind0]; rfl)
          obtain ⟨cv, hcv⟩ := Option.isSome_iff_exists.mp hcs
          have hgc : mapGetD d.bid_order_counts o.price = cv :=
            mapFind_getD_eq hcv
          rw [hgc]
          exact ladSet_find_self askLt_trans askLt_irrefl
            hI.bidV.cnts_sorted hcv
    · rw [if_neg hrest] at hnt ⊢
      dsimp only at hnt ⊢
      have htrN : trN = [] := by
        rw [hnt] at htr
        exact htr.symm
      obtain ⟨hord, hlad, hcnts, hq⟩ := hnoop htrN
      rw [hord, hlad, hcnts]
      rw [cancel_order]
      dsimp only
      rw [hfresh]
      exact ⟨rfl, rfl, rfl, rfl⟩
  · rw [if_neg hb] at hnt ⊢
    have hbf : o.is_buy = false := by
      cases h : o.is_buy with
      | false => rfl
      | true => exact absurd h hb
    have LS := matchLoop_spec false bidLt (fun bp => decide (o.price ≤ bp))
      bidLt_trans bidLt_total bidLt_irrefl (d.bids.length + 1) o d.orders
      d.bids d.bid_order_counts [] (by omega) hI.bidV
    set s := matchLoop false bidLt (fun bp => decide (o.price ≤ bp))
      (d.bids.length + 1) o d.orders d.bids d.bid_order_counts [] with hsdef
    obtain ⟨trN, htr, hcons, hnoop⟩ := LS.trades
    simp only [List.nil_append] at htr
    have hp0 : s.1.price = o.price := LS.static.2.2.2
    have hid : s.1.order_id = o.order_id := LS.static.1
    by_cases hrest : 0 < s.1.quantity
    · rw [if_pos hrest] at hnt ⊢
      dsimp only at hnt ⊢
      have htrN : trN = [] := by
        rw [hnt] at htr
        exact htr.symm
      obtain ⟨hord, hlad, hcnts, hq⟩ := hnoop htrN
      rw [hord, hlad, hcnts, hp0, hq]
      have hfind1 : regFind (d.orders ++ [(s.1.order_id, s.1)]) o.order_id =
          some s.1 := by
        rw [regFind_append, hfresh, regFind, if_pos hid.symm]
      rw [cancel_order]
      dsimp only
      rw [hfind1]
      dsimp only
      have hsLIM : s.1.order_type = OrderType.LIMIT :=
        LS.static.2.2.1.trans hLIM
      have hsb : ¬ (s.1.is_buy = true) := by
        rw [LS.static.2.1.trans hbf]
        simp
      rw [if_pos hsLIM, if_neg hsb, hp0, hq]
      dsimp only
      rw [ladderRemove, mapFind_ladSet_self]
      dsimp only
      have hVe : u64add (mapGetD d.asks o.price) o.quantity =
          mapGetD d.asks o.price + o.quantity := u64add_exact hof2
      cases hfind0 : mapFind d.asks o.price with
      | none =>
        have hv0 : mapGetD d.asks o.price = 0 := by
          rw [mapGetD, hfind0]
          rfl
        have hle : u64add (mapGetD d.asks o.price) o.quantity ≤ o.quantity := by
          rw [hVe, hv0]
          omega
        rw [if_pos hle]
        have hcf : mapFind d.ask_order_counts o.price = none := by
          cases h : mapFind d.ask_order_counts o.price with
          | none => rfl
          | some c =>
            have hps := (hI.askV.pair o.price).mpr (by rw [h]; rfl)
            rw [hfind0] at hps
            simp at hps
        dsimp only
        exact ⟨rfl, mapErase_ladSet_absent _ hfind0, rfl,
          mapErase_ladSet_absent _ hcf⟩
      | some w =>
        have hw0 : w ≠ 0 := fun h0 => hz2 (by rw [hfind0, h0])
        have hgw : mapGetD d.asks o.price = w := mapFind_getD_eq hfind0
        have hgt : ¬ (u64add (mapGetD d.asks o.price) o.quantity ≤
            o.quantity) := by
          rw [hVe, hgw]
          omega
        rw [if_neg hgt]
        dsimp only
        refine ⟨rfl, ?_, rfl, ?_⟩
        · rw [ladSet_ladSet_same, hVe, hgw]
          have harith : w + o.quantity - o.quantity = w := by omega
          rw [harith]
          exact ladSet_find_self askLt_trans askLt_irrefl hI.askV.sorted hfind0
        · rw [mapGetD_ladSet_self, u64sub_u64add_cancel hc2 (by decide),
            ladSet_ladSet_same]
          have hcs : (mapFind d.ask_order_counts o.price).isSome :=
            (hI.askV.pair o.price).mp (by rw [hfind0]; rfl)
          obtain ⟨cv, hcv⟩ := Option.isSome_iff_exists.mp hcs
          have hgc : mapGetD d.ask_order_counts o.price = cv :=
            mapFind_getD_eq hcv
          rw [hgc]
          exact ladSet_find_self askLt_trans askLt_irrefl
            hI.askV.cnts_sorted hcv
    · rw [if_neg hrest] at hnt ⊢
      dsimp only at hnt ⊢
      have htrN : trN = [] := by
        rw [hnt] at htr
        exact htr.symm
      obtain ⟨hord, hlad, hcnts, hq⟩ := hnoop htrN
      rw [hord, hlad, hcnts]
      rw [cancel_order]
      dsimp only
      rw [hfresh]
      exact ⟨rfl, rfl, rfl, rfl⟩

theorem C7_witness :
    BookInv oneOrderBook ∧
    (add_order oneOrderBook ⟨2, true, OrderType.LIMIT, 12, 4⟩).2 = [] ∧
    ((cancel_order (add_order oneOrderBook
        ⟨2, true, OrderType.LIMIT, 12, 4⟩).1 2).1.bids = oneOrderBook.bids ∧
     (cancel_order (add_order oneOrderBook
        ⟨2, true, OrderType.LIMIT, 12, 4⟩).1 2).1.asks = oneOrderBook.asks ∧
     (cancel_order (add_order oneOrderBook
        ⟨2, true, OrderType.LIMIT, 12, 4⟩).1 2).1.bid_order_counts =
       oneOrderBook.bid_order_counts ∧
     (cancel_order (add_order oneOrderBook
        ⟨2, true, OrderType.LIMIT, 12, 4⟩).1 2).1.ask_order_counts =
       oneOrderBook.ask_order_counts) :=
  ⟨oneOrderBook_inv, rfl,
   C7_add_cancel_roundtrip oneOrderBook ⟨2, true, OrderType.LIMIT, 12, 4⟩
     oneOrderBook_inv rfl (by decide) rfl (by decide) (by decide) (by decide)
     (by decide) (by decide) (by decide)⟩

/-- C7 refuted when the add produces trades: a buy LIMIT order that partially
fills against the resting ask and rests nothing leaves the ask ladder changed
even after the (no-op) cancel of its id. -/
theorem C7_counterexample :
    (cancel_order (add_order askBook
      ⟨2, true, OrderType.LIMIT, 10, 3⟩).1 2).1.asks ≠ askBook.asks := by
  decide
